import Mathlib

/-!
Shallow embedding of the XMLViewer application (src/public/app.js), together
with theorems settling the frozen claims about its specification.

Strings are modelled as Lean `String`s (lists of `Char`); JavaScript string
primitives (`trim`, `toLowerCase`, `split`, `includes`, the two regex
replaces used by the code) are embedded as executable functions below.
The `Map` of image keys to blob URLs is embedded as an association list in
first-insertion order, which matches JavaScript `Map` iteration order.
-/

namespace XMLViewer

/-! ### JavaScript string primitives -/

/-- The character class matched by JavaScript `\s` (and removed by
`String.prototype.trim`): ASCII whitespace, NBSP, the Unicode space
separators, the line separators and the BOM. -/
def isSpace (c : Char) : Bool :=
  c = ' ' || c = '\t' || c = '\n' || c = '\r' || c = '\x0b' || c = '\x0c' ||
  c = '\u00a0' || c = '\u1680' ||
  (('\u2000' : Char) ≤ c && c ≤ ('\u200a' : Char)) ||
  c = '\u2028' || c = '\u2029' || c = '\u202f' || c = '\u205f' ||
  c = '\u3000' || c = '\ufeff'

/-- JavaScript trim on character lists. -/
def trimL (l : List Char) : List Char :=
  ((l.dropWhile isSpace).reverse.dropWhile isSpace).reverse

/-- JavaScript trim on strings. -/
def jsTrim (s : String) : String := ⟨trimL s.data⟩

/-- ASCII lower-casing of one character, as `String.prototype.toLowerCase`
acts on the ASCII range (all tag names and paths in play are ASCII). -/
def lowChar (c : Char) : Char :=
  if 65 ≤ c.toNat && c.toNat ≤ 90 then Char.ofNat (c.toNat + 32) else c

/-- `String.prototype.toLowerCase` (ASCII range). -/
def lowStr (s : String) : String := ⟨s.data.map lowChar⟩

/-- Decide whether `needle` occurs as a contiguous sublist of `hay`. -/
def isInfixL (needle : List Char) : List Char → Bool
  | [] => needle.isEmpty
  | c :: rest => needle.isPrefixOf (c :: rest) || isInfixL needle rest

/-- JavaScript `a.includes(b)`: `b` occurs as a contiguous substring of `a`. -/
def jsIncludes (a b : String) : Bool := isInfixL b.data a.data

/-- JavaScript `s.split('/').pop()`: the text after the last `'/'` (the whole string
when it has none; `""` when `s` is empty or ends with `'/'`). -/
def lastSeg (s : String) : String :=
  ⟨(s.data.reverse.takeWhile (· ≠ '/')).reverse⟩

/-- JavaScript `s.replace` of an anchored literal prefix `p` by the empty string, for strip one leading occurrence. -/
def stripPre (p s : String) : String :=
  if p.data.isPrefixOf s.data then ⟨s.data.drop p.data.length⟩ else s

/-- JavaScript replace of the trailing-extension pattern (a final dot followed by non-dot characters) by the empty string: leaves the string alone when no such suffix exists. -/
def stripExt (s : String) : String :=
  let r := s.data.reverse
  let after := r.takeWhile (· ≠ '.')
  match r.dropWhile (· ≠ '.') with
  | '.' :: before => if after.isEmpty then s else ⟨before.reverse⟩
  | _ => s

/-- JavaScript truthiness of `a || b` for a nullable string `a`
(`getAttribute` returns `null` for an absent attribute; both `null` and
`""` are falsy). -/
def jsOrS (a : Option String) (b : String) : String :=
  match a with
  | some s => if s = "" then b else s
  | none => b

/-- Truthiness of a nullable string value. -/
def truthy (a : Option String) : Bool :=
  match a with
  | some s => !(s = "")
  | none => false

/-- Concatenation of a list of strings, as the JavaScript loop-accumulated
`html +=` produces. -/
def joinS : List String → String
  | [] => ""
  | s :: rest => s ++ joinS rest

/-! ### The image index (`this.images`, a JavaScript `Map`) -/

/-- The `Map` of lookup key to blob URL, as an association list in
first-insertion order (JavaScript `Map` iteration order). -/
abbrev JsMap := List (String × String)

/-- JavaScript `map.get(k)` (`undefined` becomes `none`); also decides `map.has(k)`. -/
def mapGet (m : JsMap) (k : String) : Option String :=
  (m.find? (fun kv => kv.1 = k)).map (·.2)

/-- JavaScript `map.set(k, v)`: update the value in place when the key is present
(JavaScript `Map` keeps the original insertion position), else append. -/
def mapSet (m : JsMap) (k v : String) : JsMap :=
  if (m.find? (fun kv => kv.1 = k)).isSome then
    m.map (fun kv => if kv.1 = k then (kv.1, v) else kv)
  else
    m ++ [(k, v)]

/-- The five keys registered for one extracted image asset at `path`
(from `extractContents`): file name, lower-cased file name, full relative
path, file name without its final extension, and the latter lower-cased. -/
def keysOf (path : String) : List String :=
  let fullName := lastSeg path
  let baseName := lowStr fullName
  let nameWithoutExt := stripExt fullName
  [fullName, baseName, path, nameWithoutExt, lowStr nameWithoutExt]

/-- Register one asset `(path, url)` in the index (the five `set` calls of
`extractContents`). -/
def registerImage (m : JsMap) (asset : String × String) : JsMap :=
  (keysOf asset.1).foldl (fun m k => mapSet m k asset.2) m

/-- Build the image index of one archive from its asset list, in extraction
order, starting from a given map (the code folds into `this.images`). -/
def buildImagesFrom (m : JsMap) (assets : List (String × String)) : JsMap :=
  assets.foldl registerImage m

/-- The image index built from scratch for an asset list. -/
def buildImages (assets : List (String × String)) : JsMap :=
  buildImagesFrom [] assets

/-! ### The image resolver (`findImageUrl`) -/

/-- Function `findImageUrl(src)`: the fallback-chained lookup of an image reference
against the index. Transcribed from src/public/app.js lines 402-432. -/
def findImageUrl (images : JsMap) (src : String) : Option String :=
  let cleanSrc := stripPre "/" (stripPre "./" src)
  let fileName := lastSeg cleanSrc
  let baseName := lowStr fileName
  let attempts := [src, cleanSrc, fileName, baseName,
                   stripExt fileName, stripExt baseName]
  match attempts.findSome? (fun a => mapGet images a) with
  | some url => some url
  | none =>
    match images.find? (fun kv =>
        jsIncludes kv.1 fileName || jsIncludes fileName (lastSeg kv.1)) with
    | some kv => some kv.2
    | none => none

/-- Modelled from the spec's words (section 4.2, Image Resolver): strip a
single leading `./` and a single leading `/` to get `cleanRef`; `fileName`
is the text after the last `/`; `baseName` its lower-casing; try the six
exact lookups in order, then the substring fallback over all registered
pairs, else `notFound`.  Used only to be compared against `findImageUrl`. -/
def resolveSpec (reference : String) (index : JsMap) : Option String :=
  let cleanRef := stripPre "/" (stripPre "./" reference)
  let fileName := lastSeg cleanRef
  let baseName := lowStr fileName
  let exactOrder := [reference, cleanRef, fileName, baseName,
                     stripExt fileName, stripExt baseName]
  match exactOrder.findSome? (fun k => mapGet index k) with
  | some h => some h
  | none =>
    (index.find? (fun kv =>
      jsIncludes kv.1 fileName || jsIncludes fileName (lastSeg kv.1))).map (·.2)


/-! ### The parsed XML tree

A `Node` is one node of a `DOMParser`-produced XML document tree: an
element with its tag (case preserved, as `tagName` in XML documents), its
attribute list and its ordered children, or a text node.  The `querySelector`
family matches type selectors case-sensitively in XML documents, which the
collection functions below reproduce. -/

inductive Node where
  | elem (tag : String) (attrs : List (String × String)) (children : List Node)
  | text (s : String)

/-- DOM `element.tagName` (XML preserves the source casing). -/
def tagName : Node → String
  | .elem t _ _ => t
  | .text _ => ""

/-- DOM `element.childNodes`. -/
def childNodes : Node → List Node
  | .elem _ _ ch => ch
  | .text _ => []

/-- Whether a node is an element node. -/
def isElemNode : Node → Bool
  | .elem _ _ _ => true
  | .text _ => false

/-- DOM `element.children`: the element-node children only. -/
def elemChildren (n : Node) : List Node := (childNodes n).filter isElemNode

/-- DOM `element.getAttribute(name)` (attribute names are matched exactly in
XML documents); `none` is JavaScript `null`. -/
def getAttr (n : Node) (name : String) : Option String :=
  match n with
  | .elem _ attrs _ => (attrs.find? (fun kv => kv.1 = name)).map (fun kv => kv.2)
  | .text _ => none

mutual
/-- DOM `node.textContent`: concatenated text of all descendants. -/
def textContent : Node → String
  | .text s => s
  | .elem _ _ ch => textContentList ch
/-- Concatenated text content of a list of sibling nodes. -/
def textContentList : List Node → String
  | [] => ""
  | n :: rest => textContent n ++ textContentList rest
end

mutual
/-- All elements of the subtree rooted at a node (the node included) whose
tag is exactly one of `sels`, in document (pre-)order: the engine behind
`querySelectorAll` with a comma-list of type selectors, which is
case-sensitive in XML documents. -/
def collectSelf (sels : List String) : Node → List Node
  | .text _ => []
  | .elem t a ch =>
      (if t ∈ sels then [Node.elem t a ch] else []) ++ collectList sels ch
/-- Pre-order collection of matching elements over a sibling list. -/
def collectList (sels : List String) : List Node → List Node
  | [] => []
  | n :: rest => collectSelf sels n ++ collectList sels rest
end

/-- DOM `e.querySelectorAll('s1, s2, …')` for type selectors: matching
descendants of `e` (not `e` itself), in document order. -/
def qsaDesc (sels : List String) (n : Node) : List Node :=
  collectList sels (childNodes n)

/-- DOM `e.querySelector('s1, s2, …')`: the first matching descendant. -/
def qsDesc (sels : List String) (n : Node) : Option Node :=
  (qsaDesc sels n).head?

/-- Whether a tag matches the type selector of `closest('thead')` or
`closest('header')`: the match is exact, since type selectors are
case-sensitive in XML documents. -/
def isHdrTag (t : String) : Bool := t = "thead" || t = "header"

mutual
/-- Collect the descendant `tr`/`row` elements of a subtree in document
order, each paired with the result of
`row.closest('thead') || row.closest('header')`.  DOM `closest` walks the
row's whole ancestor chain up to the document root, so `inHdr` is seeded
by the caller with the ancestor information from above the subtree and
extended here with every ancestor passed on the way down.  A collected
row's own tag is exactly `tr` or `row`, so the self step of `closest`
cannot match and the flag is the ancestor information alone. -/
def rowsSelf (inHdr : Bool) : Node → List (Bool × Node)
  | .text _ => []
  | .elem t a ch =>
      (if t = "tr" || t = "row" then [(inHdr, Node.elem t a ch)] else []) ++
      rowsList (inHdr || isHdrTag t) ch
/-- Row collection over a sibling list. -/
def rowsList (inHdr : Bool) : List Node → List (Bool × Node)
  | [] => []
  | n :: rest => rowsSelf inHdr n ++ rowsList inHdr rest
end

mutual
/-- Collect the descendants matching one of the (case-sensitive) type
selectors, in document order, each paired with its
`closest('thead')/closest('header')` ancestor information: `anc` records
whether a strict ancestor of the current node, anywhere up to the
document root, has tag exactly `thead` or `header`; it is seeded by the
caller and extended with every ancestor passed on the way down. -/
def collectFS (sels : List String) (anc : Bool) : Node → List (Bool × Node)
  | .text _ => []
  | .elem t a ch =>
      (if t ∈ sels then [(anc, Node.elem t a ch)] else []) ++
      collectFL sels (anc || isHdrTag t) ch
/-- Flagged collection over a sibling list. -/
def collectFL (sels : List String) (anc : Bool) : List Node → List (Bool × Node)
  | [] => []
  | n :: rest => collectFS sels anc n ++ collectFL sels anc rest
end

/-! ### HTML escaping (`escapeHtml`)

The code sets `div.textContent = text` and reads back `div.innerHTML`.  By
the HTML fragment serialization algorithm, serializing a text node escapes
exactly `&` (to `&amp;`), `<` (to `&lt;`), `>` (to `&gt;`) and U+00A0 (to
`&nbsp;`); every other character, quotes included, is emitted verbatim. -/

/-- Serialization of one text-node character. -/
def escChar (c : Char) : List Char :=
  if c = '&' then "&amp;".data
  else if c = '<' then "&lt;".data
  else if c = '>' then "&gt;".data
  else if c = '\u00a0' then "&nbsp;".data
  else [c]

/-- Function `escapeHtml(text)` of the code: text-node serialization via a
scratch `div`. -/
def escapeHtml (s : String) : String :=
  ⟨s.data.foldr (fun c acc => escChar c ++ acc) []⟩

/-! ### The element renderer -/

/-- The block-tag set of `hasBlockElements`. -/
def blockTags : List String :=
  ["p", "para", "paragraph", "div", "section", "table", "ul", "ol", "list",
   "h1", "h2", "h3", "h4", "h5", "h6", "title", "heading", "blockquote",
   "figure", "image", "img"]

/-- Function `hasBlockElements(element)`: some direct element child has a
lower-cased tag in `blockTags`. -/
def hasBlockElements (e : Node) : Bool :=
  (elemChildren e).any (fun c => blockTags.contains (lowStr (tagName c)))

/-- The attribute names searched for an image source, in order. -/
def srcAttrs : List String :=
  ["src", "href", "url", "source", "file", "path", "xlink:href"]

/-- The image reference determined by `renderImage` (the `imageSrc`
variable): first truthy attribute among `srcAttrs`; else the trimmed text
(or failing that the `src` attribute) of a descendant matching
`source, src, file, path`; else, when the element has exactly one child
which is a text node, its trimmed text.  `none`/`some ""` are both falsy. -/
def imageSrcOf (e : Node) : Option String :=
  let s1 : Option String := srcAttrs.findSome? (fun a =>
    match getAttr e a with
    | some v => if v = "" then none else some v
    | none => none)
  let s2 : Option String :=
    if truthy s1 then s1 else
      match qsDesc ["source", "src", "file", "path"] e with
      | some sourceEl =>
        if jsTrim (textContent sourceEl) = "" then getAttr sourceEl "src"
        else some (jsTrim (textContent sourceEl))
      | none => s1
  if truthy s2 then s2 else
    match childNodes e with
    | [Node.text _] => some (jsTrim (textContent e))
    | _ => s2

/-- The caption computed by `renderImage`: the text of the first descendant
matching `caption, figcaption, title, alt` whenever one exists (even when
that text is empty), else the first truthy of the element's own `alt` and
`title` attributes, else the empty string. -/
def captionOf (e : Node) : String :=
  match qsDesc ["caption", "figcaption", "title", "alt"] e with
  | some captionEl => textContent captionEl
  | none => jsOrS (getAttr e "alt") (jsOrS (getAttr e "title") "")

/-- Function `renderImage(element)`: determine a reference, resolve it
against the image index, and emit the image block or an inline error
marker.  The success template reproduces the literal whitespace of the
template string in the source. -/
def renderImage (images : JsMap) (e : Node) : String :=
  match imageSrcOf e with
  | none => "<div class=\"image-error\">Image source not found</div>"
  | some imageSrc =>
    if imageSrc = "" then "<div class=\"image-error\">Image source not found</div>"
    else
      let imageUrl := findImageUrl images imageSrc
      let caption := captionOf e
      match imageUrl with
      | some url =>
        if url = "" then
          "<div class=\"image-error\">Image not found: " ++ escapeHtml imageSrc ++ "</div>"
        else
          "\n                <div class=\"xml-image-container\">\n                    <img class=\"xml-image\" src=\"" ++
          url ++ "\" alt=\"" ++ escapeHtml caption ++ "\" loading=\"lazy\">\n                    " ++
          (if caption = "" then "" else
            "<div class=\"xml-image-caption\">" ++ escapeHtml caption ++ "</div>") ++
          "\n                </div>\n            "
      | none =>
        "<div class=\"image-error\">Image not found: " ++ escapeHtml imageSrc ++ "</div>"


/-! ### Size lemmas for termination of the recursive renderer -/

/-- Children weigh less than their parent element. -/
theorem sizeOf_children_lt {t : String} {a : List (String × String)}
    {ch : List Node} : sizeOf ch < sizeOf (Node.elem t a ch) := by
  simp only [Node.elem.sizeOf_spec]; omega

mutual
/-- A collected element weighs no more than the searched node. -/
theorem sizeOf_le_of_mem_collectSelf {sels : List String} {n m : Node}
    (h : m ∈ collectSelf sels n) : sizeOf m ≤ sizeOf n := by
  cases n with
  | text s => simp [collectSelf] at h
  | elem t a ch =>
    simp only [collectSelf] at h
    rcases List.mem_append.mp h with h1 | h2
    · split at h1 <;> simp_all
    · have := sizeOf_lt_of_mem_collectList h2
      simp only [Node.elem.sizeOf_spec]
      omega
/-- A collected element weighs less than the searched sibling list. -/
theorem sizeOf_lt_of_mem_collectList {sels : List String} {ns : List Node}
    {m : Node} (h : m ∈ collectList sels ns) : sizeOf m < sizeOf ns := by
  cases ns with
  | nil => simp [collectList] at h
  | cons n rest =>
    simp only [collectList] at h
    rcases List.mem_append.mp h with h1 | h2
    · have := sizeOf_le_of_mem_collectSelf h1
      simp only [List.cons.sizeOf_spec]
      omega
    · have := sizeOf_lt_of_mem_collectList h2
      simp only [List.cons.sizeOf_spec]
      omega
end

mutual
/-- A collected row weighs no more than the searched node. -/
theorem sizeOf_le_of_mem_rowsSelf {b : Bool} {n : Node} {p : Bool × Node}
    (h : p ∈ rowsSelf b n) : sizeOf p.2 ≤ sizeOf n := by
  cases n with
  | text s => simp [rowsSelf] at h
  | elem t a ch =>
    simp only [rowsSelf] at h
    rcases List.mem_append.mp h with h1 | h2
    · split at h1 <;> simp_all
    · have := sizeOf_lt_of_mem_rowsList h2
      simp only [Node.elem.sizeOf_spec]
      omega
/-- A collected row weighs less than the searched sibling list. -/
theorem sizeOf_lt_of_mem_rowsList {b : Bool} {ns : List Node}
    {p : Bool × Node} (h : p ∈ rowsList b ns) : sizeOf p.2 < sizeOf ns := by
  cases ns with
  | nil => simp [rowsList] at h
  | cons n rest =>
    simp only [rowsList] at h
    rcases List.mem_append.mp h with h1 | h2
    · have := sizeOf_le_of_mem_rowsSelf h1
      simp only [List.cons.sizeOf_spec]
      omega
    · have := sizeOf_lt_of_mem_rowsList h2
      simp only [List.cons.sizeOf_spec]
      omega
end

mutual
/-- A flag-collected element weighs no more than the searched node. -/
theorem sizeOf_le_of_mem_collectFS {sels : List String} {b : Bool}
    {n : Node} {p : Bool × Node} (h : p ∈ collectFS sels b n) :
    sizeOf p.2 ≤ sizeOf n := by
  cases n with
  | text s => simp [collectFS] at h
  | elem t a ch =>
    simp only [collectFS] at h
    rcases List.mem_append.mp h with h1 | h2
    · split at h1 <;> simp_all
    · have := sizeOf_lt_of_mem_collectFL h2
      simp only [Node.elem.sizeOf_spec]
      omega
/-- A flag-collected element weighs less than the searched sibling list. -/
theorem sizeOf_lt_of_mem_collectFL {sels : List String} {b : Bool}
    {ns : List Node} {p : Bool × Node} (h : p ∈ collectFL sels b ns) :
    sizeOf p.2 < sizeOf ns := by
  cases ns with
  | nil => simp [collectFL] at h
  | cons n rest =>
    simp only [collectFL] at h
    rcases List.mem_append.mp h with h1 | h2
    · have := sizeOf_le_of_mem_collectFS h1
      simp only [List.cons.sizeOf_spec]
      omega
    · have := sizeOf_lt_of_mem_collectFL h2
      simp only [List.cons.sizeOf_spec]
      omega
end

/-! ### The recursive renderer

`renderElement` dispatches on the lower-cased tag name; `renderChildren`
walks `childNodes`, escaping non-blank text nodes and recursing on element
nodes; `renderTable`, the per-row helper `renderRow` and `renderList`
reproduce `renderTable`/`renderList` of the code.  Each function carries
an extra argument `anc`: whether some strict ancestor of the node at hand,
in the document it was parsed from, has tag exactly `thead` or `header` -
the information DOM `closest` reads from above the node.  The app renders
the parsed document's root element, whose ancestor flag is `false`. -/

mutual
/-- Function `renderElement(element)` of the code (lines 211-351).  The
argument `anc` is the element's ancestor flag (some strict ancestor has
tag exactly `thead` or `header`), threaded so that descendant tables see
the full `closest` chain. -/
def renderElement (images : JsMap) (anc : Bool) : Node → String
  | .text _ => ""
  | .elem t a ch =>
    let tn := lowStr t
    if tn ∈ ["img", "image", "figure", "graphic", "picture"] then
      renderImage images (Node.elem t a ch)
    else if tn = "table" then
      renderTable images anc (Node.elem t a ch)
    else if tn ∈ ["ul", "ol", "list"] then
      renderList images anc (if tn = "ol" then "ol" else "ul") (Node.elem t a ch)
    else if tn ∈ ["li", "item", "listitem"] then
      "<li class=\"xml-list-item\">" ++ renderChildren images anc (Node.elem t a ch) ++ "</li>"
    else if tn ∈ ["title", "heading", "h1"] then
      "<h1 class=\"xml-title\">" ++ renderChildren images anc (Node.elem t a ch) ++ "</h1>"
    else if tn ∈ ["h2", "subtitle"] then
      "<h2 class=\"xml-h2\">" ++ renderChildren images anc (Node.elem t a ch) ++ "</h2>"
    else if tn = "h3" then
      "<h3 class=\"xml-h3\">" ++ renderChildren images anc (Node.elem t a ch) ++ "</h3>"
    else if tn ∈ ["p", "para", "paragraph", "text"] then
      "<p class=\"xml-paragraph\">" ++ renderChildren images anc (Node.elem t a ch) ++ "</p>"
    else if tn ∈ ["b", "bold", "strong"] then
      "<strong class=\"xml-bold\">" ++ renderChildren images anc (Node.elem t a ch) ++ "</strong>"
    else if tn ∈ ["i", "italic", "em", "emphasis"] then
      "<em class=\"xml-italic\">" ++ renderChildren images anc (Node.elem t a ch) ++ "</em>"
    else if tn ∈ ["u", "underline"] then
      "<u class=\"xml-underline\">" ++ renderChildren images anc (Node.elem t a ch) ++ "</u>"
    else if tn ∈ ["code", "pre", "programlisting"] then
      "<code class=\"xml-code\">" ++ escapeHtml (textContent (Node.elem t a ch)) ++ "</code>"
    else if tn ∈ ["blockquote", "quote"] then
      "<blockquote class=\"xml-blockquote\">" ++ renderChildren images anc (Node.elem t a ch) ++ "</blockquote>"
    else if tn ∈ ["a", "link", "xref"] then
      "<a class=\"xml-link\" href=\"" ++
      escapeHtml (jsOrS (getAttr (Node.elem t a ch) "href")
        (jsOrS (getAttr (Node.elem t a ch) "url") "#")) ++
      "\" target=\"_blank\">" ++ renderChildren images anc (Node.elem t a ch) ++ "</a>"
    else if tn ∈ ["br", "break", "linebreak"] then "<br>"
    else if tn ∈ ["hr", "separator", "pagebreak", "page-break"] then
      "<div class=\"xml-page-break\"></div>"
    else if tn ∈ ["section", "div", "block", "chapter"] then
      "<div class=\"xml-section\">" ++ renderChildren images anc (Node.elem t a ch) ++ "</div>"
    else if tn = "header" then
      "<div class=\"xml-header\">" ++ renderChildren images anc (Node.elem t a ch) ++ "</div>"
    else if tn = "footer" then
      "<div class=\"xml-footer\">" ++ renderChildren images anc (Node.elem t a ch) ++ "</div>"
    else if tn ∈ ["caption", "figcaption"] then
      "<div class=\"xml-image-caption\">" ++ renderChildren images anc (Node.elem t a ch) ++ "</div>"
    else if tn ∈ ["span", "inline"] then
      "<span class=\"xml-element\">" ++ renderChildren images anc (Node.elem t a ch) ++ "</span>"
    else
      if hasBlockElements (Node.elem t a ch) || !(elemChildren (Node.elem t a ch)).isEmpty then
        "<div class=\"xml-element-block\" data-tag=\"" ++ tn ++ "\">" ++
          renderChildren images anc (Node.elem t a ch) ++ "</div>"
      else
        let content := renderChildren images anc (Node.elem t a ch)
        if jsTrim content = "" then ""
        else "<span class=\"xml-element\" data-tag=\"" ++ tn ++ "\">" ++ content ++ "</span>"
  termination_by n => (sizeOf n, 3)
  decreasing_by
  all_goals exact Prod.Lex.right _ (by omega)
/-- Function `renderChildren(element)` of the code (lines 485-500): `anc`
is the flag of the element whose children are walked; each element child
is rendered with the flag extended by the element's own tag. -/
def renderChildren (images : JsMap) (anc : Bool) : Node → String
  | .text _ => ""
  | .elem t _ ch =>
    joinS (ch.attach.map (fun c =>
      match c.1 with
      | .text s => if jsTrim s = "" then "" else escapeHtml s
      | .elem _ _ _ => renderElement images (anc || isHdrTag t) c.1))
  termination_by n => (sizeOf n, 0)
  decreasing_by
  · exact Prod.Lex.left _ _ (by
      have := List.sizeOf_lt_of_mem c.2
      simp only [Node.elem.sizeOf_spec]
      omega)
/-- Function `renderTable(element)` of the code (lines 434-467).  The
unused local variables `thead`/`tbody` of the code are omitted; the flag
passed to the body combines the table's ancestor chain with the table's
own tag, completing the `closest` information for everything below. -/
def renderTable (images : JsMap) (anc : Bool) : Node → String
  | .text _ => ""
  | .elem t _ ch => tableBody images (anc || isHdrTag t) ch
  termination_by n => (sizeOf n, 2)
  decreasing_by
  · exact Prod.Lex.left _ _ sizeOf_children_lt
/-- The body of `renderTable`: collect the rows (with their `closest`
flags); with no rows fall back to a single row of the
`entry, cell, td, th` descendants; otherwise emit every row, the first
one knowing it is first.  `flag` is the ancestor flag applying to the
table's child list `ch`. -/
def tableBody (images : JsMap) (flag : Bool) (ch : List Node) : String :=
  "<table class=\"xml-table\">" ++
  (match (rowsList flag ch).attach with
   | [] =>
     if (collectFL ["entry", "cell", "td", "th"] flag ch).isEmpty then ""
     else
       "<tbody><tr>" ++
       joinS ((collectFL ["entry", "cell", "td", "th"] flag ch).attach.map
         (fun c => "<td>" ++ renderChildren images c.1.1 c.1.2 ++ "</td>")) ++
       "</tr></tbody>"
   | r0 :: rest =>
     renderRow images true r0.1 ++
     joinS (rest.map (fun p => renderRow images false p.1))) ++
  "</table>"
  termination_by (sizeOf ch, 2)
  decreasing_by
  · exact Prod.Lex.left _ _ (sizeOf_lt_of_mem_collectFL c.2)
  · exact Prod.Lex.left _ _ (sizeOf_lt_of_mem_rowsList r0.2)
  · exact Prod.Lex.left _ _ (sizeOf_lt_of_mem_rowsList p.2)
/-- One row of `renderTable`: cells are the `td, th, cell, entry`
descendants of the row, collected with their own `closest` flags; a
header cell is emitted when the row is a header row (its `closest` flag,
or being the first row while containing a `th` descendant) or the cell's
own lower-cased tag is `th`. -/
def renderRow (images : JsMap) (isFirst : Bool) (p : Bool × Node) : String :=
  match p with
  | (_, .text _) => ""
  | (hdrFlag, .elem rt _ rch) =>
    "<tr>" ++
    joinS ((collectFL ["td", "th", "cell", "entry"]
        (hdrFlag || isHdrTag rt) rch).attach.map
      (fun c =>
        let tg := if (hdrFlag || (isFirst && !(collectList ["th"] rch).isEmpty)) ||
                     lowStr (tagName c.1.2) = "th" then "th" else "td"
        "<" ++ tg ++ ">" ++ renderChildren images c.1.1 c.1.2 ++ "</" ++ tg ++ ">")) ++
    "</tr>"
  termination_by (sizeOf p.2, 1)
  decreasing_by
  · exact Prod.Lex.left _ _ (by
      have := sizeOf_lt_of_mem_collectFL c.2
      simp_all only [Node.elem.sizeOf_spec]
      omega)
/-- Function `renderList(element, listType)` of the code (lines 469-483). -/
def renderList (images : JsMap) (anc : Bool) (listType : String) : Node → String
  | .text _ => ""
  | .elem t a ch =>
    "<" ++ listType ++ " class=\"xml-list\">" ++
    (if (ch.filter (fun c => isElemNode c &&
          (tagName c = "li" || tagName c = "item" || tagName c = "listitem"))).isEmpty
     then renderChildren images anc (Node.elem t a ch)
     else
       joinS ((ch.filter (fun c => isElemNode c &&
           (tagName c = "li" || tagName c = "item" || tagName c = "listitem"))).attach.map
         (fun c =>
           "<li class=\"xml-list-item\">" ++ renderChildren images (anc || isHdrTag t) c.1 ++ "</li>"))) ++
    "</" ++ listType ++ ">"
  termination_by n => (sizeOf n, 1)
  decreasing_by
  · exact Prod.Lex.right _ (by omega)
  · exact Prod.Lex.left _ _ (by
      have := List.sizeOf_lt_of_mem (List.mem_of_mem_filter c.2)
      simp only [Node.elem.sizeOf_spec]
      omega)
end


/-! ### Session state (`this.xmlFiles`, `this.images`, selection)

`ViewerState` models the per-session fields of the application object that
the claims mention; `revoked` accumulates every blob URL passed to
`URL.revokeObjectURL`, so releasing of handles is observable. -/

structure ViewerState where
  images : JsMap
  revoked : List String
  xmlNames : List String
  currentXmlIndex : Nat

/-- The state of a freshly constructed viewer. -/
def initState : ViewerState := ⟨[], [], [], 0⟩

/-- Method `extractContents(zip)` as far as session state is concerned: the
document list is rebuilt from the archive, the archive's image assets are
folded into the existing `this.images` map (the code never clears it), and
the selection resets to 0.  No URL is revoked here. -/
def extractContents (st : ViewerState) (xmlNames : List String)
    (assets : List (String × String)) : ViewerState :=
  { images := buildImagesFrom st.images assets
    revoked := st.revoked
    xmlNames := xmlNames
    currentXmlIndex := 0 }

/-- Method `processFile(file)`: after the `.zip` check and UI toggles (both
outside the model) it loads the archive and calls `extractContents`;
nothing of the previous session is released or discarded beforehand. -/
def processFile (st : ViewerState) (xmlNames : List String)
    (assets : List (String × String)) : ViewerState :=
  extractContents st xmlNames assets

/-- Method `reset()` (back/retry buttons only): revoke every blob URL,
clear the map and the document list. -/
def reset (st : ViewerState) : ViewerState :=
  { images := []
    revoked := st.revoked ++ st.images.map (fun kv => kv.2)
    xmlNames := []
    currentXmlIndex := 0 }

/-! ### The raw formatter (`formatXML`)

`formatXML` first replaces every occurrence of `>` + whitespace + `<` by
`>\n<` (the JavaScript global regex replace of the pattern greater-than,
whitespace-star, less-than), splits on newlines, and re-emits each trimmed
non-empty line at a computed indent. -/

/-- The global regex replace: at a `>` whose maximal whitespace run is
followed directly by `<`, emit the pair separated by one newline and resume
after the `<`; everything else is copied.  (The regex engine advances one
position after a failed attempt and past the `<` after a successful one;
greedy `\s*` means a match happens exactly when the first non-whitespace
character after the `>` is a `<`.) -/
def gtltNorm : List Char → List Char
  | [] => []
  | c :: rest =>
    if c = '>' then
      if hlt : (rest.dropWhile isSpace).head? = some '<' then
        '>' :: '\n' :: '<' :: gtltNorm (rest.dropWhile isSpace).tail
      else c :: gtltNorm rest
    else c :: gtltNorm rest
  termination_by l => l.length
  decreasing_by
  · have h1 : (rest.dropWhile isSpace).length ≤ rest.length :=
      (List.dropWhile_suffix isSpace).length_le
    have h2 : rest.dropWhile isSpace ≠ [] := by
      intro he
      rw [he] at hlt
      simp at hlt
    have h3 : (rest.dropWhile isSpace).tail.length <
        (rest.dropWhile isSpace).length := by
      cases hcase : rest.dropWhile isSpace with
      | nil => exact absurd hcase h2
      | cons e es => simp [hcase]
    simp only [List.length_cons]
    omega
  · simp only [List.length_cons]; omega
  · simp only [List.length_cons]; omega

/-- JavaScript `split('\n')` (keeps empty segments; one empty segment for
the empty string). -/
def splitNl : List Char → List (List Char)
  | [] => [[]]
  | c :: rest =>
    if c = '\n' then [] :: splitNl rest
    else
      match splitNl rest with
      | seg :: segs => (c :: seg) :: segs
      | [] => [[c]]

/-- The indent-increase condition of the loop body: an opening tag that is
not a closing / declaration / comment tag, not self-closing, and without an
inline closing tag. -/
def incCond (ln : List Char) : Bool :=
  ['<'].isPrefixOf ln && !(['<', '/'].isPrefixOf ln) &&
  !(['<', '?'].isPrefixOf ln) && !(['<', '!'].isPrefixOf ln) &&
  !(['/', '>'].isSuffixOf ln) && !(isInfixL ['<', '/'] ln)

/-- JavaScript `'  '.repeat(indent)`. -/
def indentSp (n : Nat) : List Char := List.replicate (2 * n) ' '

/-- The formatting loop: trim each raw line, skip blank lines, lower the
indent before a closing tag (`Math.max(0, indent - 1)` is truncated `Nat`
subtraction), emit the indented line plus newline, then raise the indent
after an opening tag. -/
def fmtLoop : Nat → List (List Char) → List Char
  | _, [] => []
  | ind, rawLn :: rest =>
    let ln := trimL rawLn
    if ln.isEmpty then fmtLoop ind rest
    else
      let ind2 := if ['<', '/'].isPrefixOf ln then ind - 1 else ind
      indentSp ind2 ++ ln ++ '\n' :: fmtLoop (if incCond ln then ind2 + 1 else ind2) rest

/-- Function `formatXML(xml)` of the code (lines 522-548), on character
lists: normalize, split, loop, and trim the final result. -/
def formatXML (l : List Char) : List Char :=
  trimL (fmtLoop 0 (splitNl (gtltNorm l)))

/-- Function `formatXML(xml)` on strings. -/
def formatXMLS (s : String) : String := ⟨formatXML s.data⟩


/-! ## Supporting lemmas about the map operations -/

theorem find?_update (m : JsMap) (k v k' : String) :
    List.find? (fun kv => kv.1 = k')
        (m.map (fun kv => if kv.1 = k then (kv.1, v) else kv)) =
      (List.find? (fun kv => kv.1 = k') m).map
        (fun kv => if kv.1 = k then (kv.1, v) else kv) := by
  rw [List.find?_map]
  have hp : ((fun kv => decide (kv.1 = k')) ∘
      fun kv : String × String => if kv.1 = k then (kv.1, v) else kv) =
      (fun kv : String × String => decide (kv.1 = k')) := by
    funext kv
    by_cases hk : kv.1 = k <;> simp [hk, Function.comp]
  rw [hp]

theorem mapGet_mapSet (m : JsMap) (k v k' : String) :
    mapGet (mapSet m k v) k' = if k' = k then some v else mapGet m k' := by
  unfold mapSet
  by_cases h : (List.find? (fun kv => kv.1 = k) m).isSome
  · rw [if_pos h]
    unfold mapGet
    rw [find?_update]
    by_cases h1 : k' = k
    · subst h1
      obtain ⟨kv, hkv⟩ := Option.isSome_iff_exists.mp h
      rw [hkv]
      have hk : kv.1 = k' := by simpa using List.find?_some hkv
      simp [hk]
    · cases hf : List.find? (fun kv => kv.1 = k') m with
      | none => simp [h1]
      | some kv =>
        have hk : kv.1 = k' := by simpa using List.find?_some hf
        simp [hk, h1]
  · rw [if_neg h]
    have hnone : List.find? (fun kv => kv.1 = k) m = none :=
      Option.not_isSome_iff_eq_none.mp h
    unfold mapGet
    rw [List.find?_append]
    by_cases h1 : k' = k
    · subst h1
      rw [hnone]
      simp [List.find?]
    · have hsing : List.find? (fun kv => kv.1 = k') [(k, v)] = none := by
        simp [List.find?, Ne.symm h1]
      rw [hsing]
      simp [h1]

theorem mapGet_register_keys (ks : List String) (m : JsMap) (v k' : String) :
    mapGet (ks.foldl (fun m k => mapSet m k v) m) k' =
      if k' ∈ ks then some v else mapGet m k' := by
  induction ks generalizing m with
  | nil => simp
  | cons k rest ih =>
    simp only [List.foldl_cons, ih, mapGet_mapSet, List.mem_cons]
    by_cases h1 : k' ∈ rest
    · simp [h1]
    · by_cases h2 : k' = k <;> simp [h1, h2]

theorem mapGet_buildImagesFrom (assets : List (String × String)) (m : JsMap)
    (k : String) :
    mapGet (buildImagesFrom m assets) k =
      match assets.reverse.find? (fun a => (keysOf a.1).contains k) with
      | some a => some a.2
      | none => mapGet m k := by
  induction assets generalizing m with
  | nil => simp [buildImagesFrom]
  | cons a rest ih =>
    have hstep : buildImagesFrom m (a :: rest) =
        buildImagesFrom (registerImage m a) rest := rfl
    rw [hstep, ih]
    have hreg : mapGet (registerImage m a) k =
        if k ∈ keysOf a.1 then some a.2 else mapGet m k :=
      mapGet_register_keys _ _ _ _
    simp only [List.reverse_cons, List.find?_append]
    cases hf : rest.reverse.find? (fun x => (keysOf x.1).contains k) with
    | some b => simp
    | none =>
      simp only [Option.none_or]
      rw [hreg]
      by_cases hm : k ∈ keysOf a.1
      · simp [List.find?, hm]
      · simp [List.find?, hm]

/-! ## C1, C2, C4, C5 -/

/-- C1: the claim asserts that `escapeHtml` encodes `&`, `<`, `>` and the
quote characters.  The code's `textContent`/`innerHTML` device encodes
`&`, `<`, `>` (and U+00A0) but leaves both kinds of quote untouched, so
the result is not safe inside quoted attribute values, where the renderer
interpolates it (`alt="…"`, `href="…"`).  This theorem evaluates the code
at the failing inputs. -/
theorem c1_escapeHtml_leaves_quotes :
    escapeHtml "\"" = "\"" ∧ escapeHtml "'" = "'" ∧
    escapeHtml "&<>" = "&amp;&lt;&gt;" ∧
    escapeHtml "He said \"hi\"" = "He said \"hi\"" := by
  refine ⟨rfl, rfl, rfl, rfl⟩

/-- C2 counterexample: the claim lists the lower-cased full relative path
among the registered keys; the code never registers it.  For the single
asset at path `DIR/a.png` the lookup of `dir/a.png` misses. -/
theorem c2_lowercased_path_not_registered :
    mapGet (buildImages [("DIR/a.png", "u")]) "dir/a.png" = none := by rfl

/-- C2 (amended): the index maps exactly the keys derived by `keysOf`
(file name, lower-cased file name, original-case full relative path, file
name without final extension in original and lower case); a lookup returns
the handle of the **last-registered** asset owning that key, and misses —
in particular on lower-cased full paths that coincide with no `keysOf`
key — otherwise. -/
theorem c2_index_characterization (assets : List (String × String))
    (k : String) :
    mapGet (buildImages assets) k =
      (assets.reverse.find? (fun a => (keysOf a.1).contains k)).map
        (fun a => a.2) := by
  rw [buildImages, mapGet_buildImagesFrom]
  cases assets.reverse.find? (fun a => (keysOf a.1).contains k) <;>
    simp [mapGet]


/-- C4: the resolver implements exactly the spec's algorithm — strip a
single leading `./` and a single leading `/`, take the text after the last
`/` as `fileName`, try the six exact lookups in the stated order, then the
substring fallback over the registered pairs in index order — and in
particular the reference `multimedia/photo.PNG` resolves, via the
lower-cased file-name key, to the handle of an asset registered at path
`multimedia/photo.png`. -/
theorem c4_resolver_follows_spec :
    (∀ (reference : String) (index : JsMap),
      findImageUrl index reference = resolveSpec reference index) ∧
    (∀ u : String,
      findImageUrl (buildImages [("multimedia/photo.png", u)])
        "multimedia/photo.PNG" = some u) := by
  constructor
  · intro reference index
    unfold findImageUrl resolveSpec
    have hmap : ∀ (x : Option (String × String)),
        (match x with
          | some kv => some kv.2
          | none => (none : Option String)) = x.map (fun kv => kv.2) := by
      intro x; cases x <;> rfl
    dsimp only
    rw [hmap]
  · intro u
    unfold findImageUrl
    simp only [List.findSome?]
    rfl

/-- C5: the claim requires that loading a new archive into an existing
session first releases every previous blob URL and discards the previous
image index.  Evaluating the model at the failing input — an archive with
`multimedia/a.png` followed by a second archive with `multimedia/b.png` —
shows that after the second load the index still answers for the first
archive's key `a.png` and nothing was revoked, while `reset` (bound to the
back/retry buttons only) does revoke.  `processFile` performs no release,
so the claim fails on the code. -/
theorem c5_new_load_keeps_stale_index :
    mapGet (processFile
        (processFile initState ["doc1.xml"] [("multimedia/a.png", "blob:u1")])
        ["doc2.xml"] [("multimedia/b.png", "blob:u2")]).images "a.png" =
      some "blob:u1" ∧
    (processFile
        (processFile initState ["doc1.xml"] [("multimedia/a.png", "blob:u1")])
        ["doc2.xml"] [("multimedia/b.png", "blob:u2")]).revoked = [] ∧
    (reset (processFile initState ["doc1.xml"]
        [("multimedia/a.png", "blob:u1")])).images = [] ∧
    (reset (processFile initState ["doc1.xml"]
        [("multimedia/a.png", "blob:u1")])).revoked =
      ["blob:u1", "blob:u1", "blob:u1"] := by
  refine ⟨rfl, rfl, rfl, rfl⟩


/-! ## C10: empty file-name references always resolve on a non-empty index -/

theorem lastSeg_eq_empty (s : String)
    (h : s = "" ∨ s.data.getLast? = some '/') : lastSeg s = "" := by
  rcases h with h | h
  · subst h; rfl
  · unfold lastSeg
    rw [List.getLast?_eq_head?_reverse] at h
    cases hr : s.data.reverse with
    | nil => simp [hr]
    | cons c rest =>
      rw [hr] at h
      simp only [List.head?_cons, Option.some.injEq] at h
      subst h
      simp [List.takeWhile]

theorem stripPre_ends_slash (p s : String)
    (h : s = "" ∨ s.data.getLast? = some '/') :
    stripPre p s = "" ∨ (stripPre p s).data.getLast? = some '/' := by
  rcases h with h | h
  · subst h
    unfold stripPre
    split
    · left
      apply String.ext
      simp
    · left; rfl
  · unfold stripPre
    split
    · cases hd : s.data.drop p.data.length with
      | nil =>
        left
        apply String.ext
        simp [hd]
      | cons c rest =>
        right
        have hne2 : s.data.drop p.data.length ≠ [] := by
          rw [hd]; exact List.cons_ne_nil c rest
        have hlast := List.getLast?_append_of_ne_nil
          (s.data.take p.data.length) hne2
        rw [List.take_append_drop] at hlast
        have hfin : (s.data.drop p.data.length).getLast? = some '/' := by
          rw [← hlast, h]
        rw [hd] at hfin
        simpa using hfin
    · right; exact h

theorem isInfixL_nil (l : List Char) : isInfixL [] l = true := by
  cases l with
  | nil => rfl
  | cons c rest => simp [isInfixL, List.isPrefixOf]

/-- C10: whenever the image index is non-empty and the reference's
file-name component is empty (the reference is empty or ends in a slash),
`findImageUrl` returns a handle: every exact-lookup miss falls to the
substring fallback, whose first test `key.includes('')` is true for the
first registered entry. -/
theorem c10_empty_filename_always_resolves (images : JsMap) (src : String)
    (hne : images ≠ []) (h : src = "" ∨ src.data.getLast? = some '/') :
    (findImageUrl images src).isSome = true := by
  have hclean : lastSeg (stripPre "/" (stripPre "./" src)) = "" :=
    lastSeg_eq_empty _ (stripPre_ends_slash _ _ (stripPre_ends_slash _ _ h))
  unfold findImageUrl
  dsimp only
  rw [hclean]
  cases hfs : List.findSome? (fun a => mapGet images a)
      [src, stripPre "/" (stripPre "./" src), "", lowStr "", stripExt "",
        stripExt (lowStr "")] with
  | some url => simp
  | none =>
    simp only
    cases images with
    | nil => exact absurd rfl hne
    | cons kv rest =>
      rw [List.find?_cons_of_pos]
      · simp
      · simp [jsIncludes, isInfixL_nil]


/-- Witness for C10 at a concrete non-empty index and slash-terminated
reference. -/
theorem c10_witness :
    (([("photo.png", "u")] : JsMap) ≠ [] ∧
      ("multimedia/" = "" ∨ "multimedia/".data.getLast? = some '/')) ∧
    (findImageUrl [("photo.png", "u")] "multimedia/").isSome = true :=
  ⟨⟨by decide, Or.inr (by decide)⟩,
    c10_empty_filename_always_resolves _ _ (by decide) (Or.inr (by decide))⟩

/-! ## C6: the image caption -/

/-- Modelled from the claim's words: the caption is the first non-empty
among the text of the first descendant matching
`caption, figcaption, title, alt`, the element's own `alt` attribute and
its `title` attribute, and empty when all are empty or absent. -/
def specCaption (e : Node) : String :=
  let dt := match qsDesc ["caption", "figcaption", "title", "alt"] e with
    | some el => textContent el
    | none => ""
  if dt ≠ "" then dt
  else if (getAttr e "alt").getD "" ≠ "" then (getAttr e "alt").getD ""
  else if (getAttr e "title").getD "" ≠ "" then (getAttr e "title").getD ""
  else ""

/-- An image element whose `caption` descendant is empty while its own
`alt` attribute is not. -/
def c6node : Node :=
  Node.elem "image" [("src", "photo.png"), ("alt", "A")]
    [Node.elem "caption" [] []]

/-- C6 counterexample: for an image element with an **empty** `caption`
descendant and a non-empty `alt` attribute, the code uses the descendant's
empty text and ignores `alt` (the rendered block gets `alt=""` and no
caption line), while the claim's first-non-empty rule demands `A`. -/
theorem c6_caption_counterexample :
    captionOf c6node = "" ∧ specCaption c6node = "A" ∧
    renderImage (buildImages [("photo.png", "u")]) c6node =
      "\n                <div class=\"xml-image-container\">\n                    <img class=\"xml-image\" src=\"u\" alt=\"\" loading=\"lazy\">\n                    \n                </div>\n            " := by
  refine ⟨rfl, rfl, rfl⟩

/-- C6 (amended): the caption is the text of the first descendant matching
`caption, figcaption, title, alt` whenever such a descendant exists — even
when that text is empty, in which case the caption is empty regardless of
the `alt`/`title` attributes — and otherwise the first non-empty of the
`alt` then `title` attributes, else empty.  Equivalently: the claim's
first-non-empty rule holds exactly when any matching descendant has
non-empty text. -/
theorem c6_caption_amended (e : Node)
    (h : ((qsDesc ["caption", "figcaption", "title", "alt"] e).all
      (fun el => !(textContent el == ""))) = true) :
    captionOf e = specCaption e := by
  unfold captionOf specCaption
  cases hq : qsDesc ["caption", "figcaption", "title", "alt"] e with
  | some el =>
    rw [hq] at h
    have hne : textContent el ≠ "" := by simpa using h
    simp [hne]
  | none =>
    dsimp only
    cases ha : getAttr e "alt" with
    | some va =>
      by_cases hva : va = ""
      · subst hva
        cases ht : getAttr e "title" with
        | some vt =>
          by_cases hvt : vt = "" <;> simp [jsOrS, hvt]
        | none => simp [jsOrS]
      · simp [jsOrS, hva]
    | none =>
      cases ht : getAttr e "title" with
      | some vt =>
        by_cases hvt : vt = "" <;> simp [jsOrS, hvt]
      | none => simp [jsOrS]

/-- Witness for C6 at an image element whose `caption` descendant has
non-empty text. -/
theorem c6_caption_witness :
    captionOf (Node.elem "image" [("alt", "A")]
        [Node.elem "caption" [] [Node.text "Cap"]]) =
      specCaption (Node.elem "image" [("alt", "A")]
        [Node.elem "caption" [] [Node.text "Cap"]]) :=
  c6_caption_amended _ (by decide)


/-! ## The child-walk of `renderChildren`, as a plain map -/

/-- The contribution of one child node in `renderChildren`: non-blank text
is escaped, element nodes are rendered recursively, blank text is
dropped.  `anc` is the child-level ancestor flag. -/
def childRender (images : JsMap) (anc : Bool) : Node → String
  | .text s => if jsTrim s = "" then "" else escapeHtml s
  | .elem t a ch => renderElement images anc (Node.elem t a ch)

theorem joinS_append (a b : List String) :
    joinS (a ++ b) = joinS a ++ joinS b := by
  induction a with
  | nil => simp [joinS]
  | cons s rest ih => simp [joinS, ih, String.append_assoc]

theorem renderChildren_eq (images : JsMap) (anc : Bool) (t : String)
    (a : List (String × String)) (ch : List Node) :
    renderChildren images anc (Node.elem t a ch) =
      joinS (ch.map (childRender images (anc || isHdrTag t))) := by
  rw [renderChildren]
  congr 1
  have hfun : (fun (c : {x // x ∈ ch}) =>
      match c.1 with
      | .text s => if jsTrim s = "" then "" else escapeHtml s
      | .elem _ _ _ => renderElement images (anc || isHdrTag t) c.1) =
      fun (c : {x // x ∈ ch}) => childRender images (anc || isHdrTag t) c.1 := by
    funext c
    obtain ⟨x, hx⟩ := c
    cases x <;> rfl
  rw [hfun, List.attach_map_val]

/-! ## C8: image failures are local -/

/-- C8: image-rendering failures are absorbed locally.  When no reference
can be determined (`imageSrc` stays falsy) the element renders to the
`Image source not found` marker; when a reference is determined but the
resolver misses, it renders to a marker containing the escaped reference;
and a child's rendering contributes independently to `renderChildren`, so
siblings of a failing image are rendered unchanged. -/
theorem c8_image_failures (images : JsMap) (e : Node) :
    (truthy (imageSrcOf e) = false →
      renderImage images e =
        "<div class=\"image-error\">Image source not found</div>") ∧
    (∀ s : String, imageSrcOf e = some s → s ≠ "" →
      findImageUrl images s = none →
      renderImage images e =
        "<div class=\"image-error\">Image not found: " ++ escapeHtml s ++
          "</div>") ∧
    (∀ (anc : Bool) (t : String) (a : List (String × String))
      (pre post : List Node)
      (t2 : String) (a2 : List (String × String)) (ch2 : List Node),
      e = Node.elem t2 a2 ch2 →
      renderChildren images anc (Node.elem t a (pre ++ e :: post)) =
        renderChildren images anc (Node.elem t a pre) ++
          renderElement images (anc || isHdrTag t) e ++
          renderChildren images anc (Node.elem t a post)) := by
  refine ⟨?_, ?_, ?_⟩
  · intro h
    unfold renderImage
    cases hs : imageSrcOf e with
    | none => rfl
    | some v =>
      rw [hs] at h
      have hv : v = "" := by simpa [truthy] using h
      simp [hv]
  · intro v hs hne hfind
    unfold renderImage
    rw [hs]
    simp [hne, hfind]
  · intro anc t a pre post t2 a2 ch2 he
    subst he
    rw [renderChildren_eq, renderChildren_eq, renderChildren_eq,
      List.map_append, List.map_cons, joinS_append]
    show _ ++ (childRender images (anc || isHdrTag t) (Node.elem t2 a2 ch2) ++ _) = _
    rw [childRender]
    rw [← String.append_assoc]

/-- Witness for C8: a bare `img` element with no source renders the
`Image source not found` marker; an `img` whose reference `nope.png`
cannot be resolved against an empty index renders the escaped-reference
marker; and a paragraph around the failing image renders its text siblings
unchanged. -/
theorem c8_witness :
    renderImage [] (Node.elem "img" [] []) =
      "<div class=\"image-error\">Image source not found</div>" ∧
    renderImage [] (Node.elem "img" [("src", "nope.png")] []) =
      "<div class=\"image-error\">Image not found: " ++
        escapeHtml "nope.png" ++ "</div>" ∧
    renderChildren [] false (Node.elem "p" []
        ([Node.text "before"] ++
          Node.elem "img" [("src", "nope.png")] [] :: [Node.text "after"])) =
      renderChildren [] false (Node.elem "p" [] [Node.text "before"]) ++
        renderElement [] (false || isHdrTag "p")
          (Node.elem "img" [("src", "nope.png")] []) ++
        renderChildren [] false (Node.elem "p" [] [Node.text "after"]) :=
  ⟨(c8_image_failures [] _).1 (by decide),
   (c8_image_failures [] _).2.1 "nope.png" rfl (by decide) rfl,
   (c8_image_failures [] _).2.2 false "p" [] _ _ "img" _ _ rfl⟩


/-! ## C7: unknown tags -/

/-- Every tag with a dedicated case in `renderElement`'s dispatch. -/
def handledTags : List String :=
  ["img", "image", "figure", "graphic", "picture", "table", "ul", "ol",
   "list", "li", "item", "listitem", "title", "heading", "h1", "h2",
   "subtitle", "h3", "p", "para", "paragraph", "text", "b", "bold",
   "strong", "i", "italic", "em", "emphasis", "u", "underline", "code",
   "pre", "programlisting", "blockquote", "quote", "a", "link", "xref",
   "br", "break", "linebreak", "hr", "separator", "pagebreak",
   "page-break", "section", "div", "block", "chapter", "header", "footer",
   "caption", "figcaption", "span", "inline"]

/-- C7: for an element whose lower-cased tag is not in the dispatch table,
the renderer emits the generic block wrapper (tagged with the lower-cased
tag name) around the rendered children when the element has any child
elements or a direct child in the block-tag set; otherwise the inline
wrapper when the rendered content is non-blank; otherwise nothing. -/
theorem c7_unknown_tag_fallback (images : JsMap) (anc : Bool) (t : String)
    (a : List (String × String)) (ch : List Node)
    (h : lowStr t ∉ handledTags) :
    renderElement images anc (Node.elem t a ch) =
      if (elemChildren (Node.elem t a ch)).isEmpty = false ∨
          hasBlockElements (Node.elem t a ch) = true then
        "<div class=\"xml-element-block\" data-tag=\"" ++ lowStr t ++ "\">" ++
          renderChildren images anc (Node.elem t a ch) ++ "</div>"
      else if jsTrim (renderChildren images anc (Node.elem t a ch)) ≠ "" then
        "<span class=\"xml-element\" data-tag=\"" ++ lowStr t ++ "\">" ++
          renderChildren images anc (Node.elem t a ch) ++ "</span>"
      else "" := by
  rw [renderElement]
  simp only [handledTags, List.mem_cons, List.not_mem_nil, or_false,
    not_or] at h
  obtain ⟨h1, h2, h3, h4, h5, h6, h7, h8, h9, h10, h11, h12, h13, h14,
    h15, h16, h17, h18, h19, h20, h21, h22, h23, h24, h25, h26, h27, h28,
    h29, h30, h31, h32, h33, h34, h35, h36, h37, h38, h39, h40, h41, h42,
    h43, h44, h45, h46, h47, h48, h49, h50, h51, h52, h53, h54, h55,
    h56⟩ := h
  simp only [List.mem_cons, List.not_mem_nil, or_false, h1, h2, h3, h4,
    h5, h6, h7, h8, h9, h10, h11, h12, h13, h14, h15, h16, h17, h18, h19,
    h20, h21, h22, h23, h24, h25, h26, h27, h28, h29, h30, h31, h32, h33,
    h34, h35, h36, h37, h38, h39, h40, h41, h42, h43, h44, h45, h46, h47,
    h48, h49, h50, h51, h52, h53, h54, h55, h56, if_false, false_or,
    or_self, ite_false]
  by_cases hb : hasBlockElements (Node.elem t a ch) = true
  · have hch : (elemChildren (Node.elem t a ch)).isEmpty = false ∨
        hasBlockElements (Node.elem t a ch) = true := Or.inr hb
    rw [if_pos hch]
    have hcond : (hasBlockElements (Node.elem t a ch) ||
        !(elemChildren (Node.elem t a ch)).isEmpty) = true := by
      simp [hb]
    rw [if_pos hcond]
  · by_cases he : (elemChildren (Node.elem t a ch)).isEmpty = true
    · have hch : ¬((elemChildren (Node.elem t a ch)).isEmpty = false ∨
          hasBlockElements (Node.elem t a ch) = true) := by
        simp [he, hb]
      rw [if_neg hch]
      have hcond : (hasBlockElements (Node.elem t a ch) ||
          !(elemChildren (Node.elem t a ch)).isEmpty) = false := by
        simp [he, hb]
      rw [hcond]
      simp only [Bool.false_eq_true, if_false]
      by_cases htr : jsTrim (renderChildren images anc (Node.elem t a ch)) = ""
      · rw [if_pos htr, if_neg (by simpa using htr)]
      · rw [if_neg htr, if_pos (by simpa using htr)]
    · have hch : (elemChildren (Node.elem t a ch)).isEmpty = false ∨
          hasBlockElements (Node.elem t a ch) = true :=
        Or.inl (Bool.eq_false_iff.mpr he)
      rw [if_pos hch]
      have hcond : (hasBlockElements (Node.elem t a ch) ||
          !(elemChildren (Node.elem t a ch)).isEmpty) = true := by
        simp [Bool.eq_false_iff.mpr he]
      rw [if_pos hcond]

/-- Witness for C7 at an unknown tag `foo` with a single text child. -/
theorem c7_witness :
    lowStr "foo" ∉ handledTags ∧
    renderElement [] false (Node.elem "foo" [] [Node.text "hi"]) =
      (if (elemChildren (Node.elem "foo" [] [Node.text "hi"])).isEmpty = false ∨
          hasBlockElements (Node.elem "foo" [] [Node.text "hi"]) = true then
        "<div class=\"xml-element-block\" data-tag=\"" ++ lowStr "foo" ++ "\">" ++
          renderChildren [] false (Node.elem "foo" [] [Node.text "hi"]) ++ "</div>"
      else if jsTrim (renderChildren [] false (Node.elem "foo" [] [Node.text "hi"])) ≠ "" then
        "<span class=\"xml-element\" data-tag=\"" ++ lowStr "foo" ++ "\">" ++
          renderChildren [] false (Node.elem "foo" [] [Node.text "hi"]) ++ "</span>"
      else "") :=
  ⟨by decide, c7_unknown_tag_fallback [] false "foo" [] [Node.text "hi"] (by decide)⟩


/-! ## C3: case-sensitivity of tag-name comparisons -/

mutual
/-- Lower-case every element tag in a tree. -/
def lowerTags : Node → Node
  | .text s => .text s
  | .elem t a ch => .elem (lowStr t) a (lowerTagsList ch)
/-- Lower-case every element tag in a sibling list. -/
def lowerTagsList : List Node → List Node
  | [] => []
  | n :: rest => lowerTags n :: lowerTagsList rest
end

/-- A table whose row and cell tags are upper-cased. -/
def c3table : Node :=
  Node.elem "table" [] [Node.elem "TR" [] [Node.elem "TD" [] [Node.text "x"]]]

/-- C3 counterexample: the claim implies that lower-casing every tag of a
tree leaves the rendering unchanged, but the `querySelectorAll`-based row
and cell selection of `renderTable` matches tag names case-sensitively in
XML documents: the table with `TR`/`TD` rows renders as an empty table,
its lower-cased form renders the row. -/
theorem c3_case_counterexample :
    renderElement [] false (lowerTags c3table) ≠
      renderElement [] false c3table := by
  simp +decide [c3table, lowerTags, lowerTagsList, lowStr, lowChar,
    renderElement, renderTable, tableBody, renderRow, renderChildren,
    rowsList, rowsSelf, collectList, collectSelf, collectFL, collectFS,
    isHdrTag]

theorem lowChar_idem (c : Char) : lowChar (lowChar c) = lowChar c := by
  by_cases h : (65 ≤ c.toNat && c.toNat ≤ 90) = true
  · have h1 : lowChar c = Char.ofNat (c.toNat + 32) := by
      unfold lowChar; rw [if_pos h]
    have hb : 65 ≤ c.toNat ∧ c.toNat ≤ 90 := by simpa using h
    have ht : (Char.ofNat (c.toNat + 32)).toNat = c.toNat + 32 := by
      unfold Char.ofNat
      split
      · rfl
      · rename_i hv
        exact absurd (Or.inl (by omega)) hv
    have hcond : ¬((65 ≤ (Char.ofNat (c.toNat + 32)).toNat &&
        (Char.ofNat (c.toNat + 32)).toNat ≤ 90) = true) := by
      rw [ht]
      simp only [Bool.and_eq_true, decide_eq_true_eq, not_and]
      omega
    rw [h1]
    unfold lowChar
    rw [if_neg hcond]
  · have h1 : lowChar c = c := by unfold lowChar; rw [if_neg h]
    rw [h1, h1]

theorem lowL_idem (l : List Char) :
    (l.map lowChar).map lowChar = l.map lowChar := by
  induction l with
  | nil => rfl
  | cons c r ih => simp [ih, lowChar_idem]

theorem lowStr_idem (s : String) : lowStr (lowStr s) = lowStr s := by
  unfold lowStr
  exact congrArg String.mk (lowL_idem s.data)

theorem renderList_tag (images : JsMap) (anc : Bool) (lt t t' : String)
    (a a' : List (String × String)) (ch : List Node)
    (h : isHdrTag t = isHdrTag t') :
    renderList images anc lt (Node.elem t a ch) =
      renderList images anc lt (Node.elem t' a' ch) := by
  rw [renderList]
  conv_rhs => rw [renderList]
  rw [renderChildren_eq, renderChildren_eq, h]

theorem renderTable_eq_body (images : JsMap) (anc : Bool) (t : String)
    (a : List (String × String)) (ch : List Node) :
    renderTable images anc (Node.elem t a ch) =
      tableBody images (anc || isHdrTag t) ch := by
  rw [renderTable]

theorem renderTable_hdrflag (images : JsMap) (anc : Bool) (t t' : String)
    (a a' : List (String × String)) (ch : List Node)
    (h : isHdrTag t = isHdrTag t') :
    renderTable images anc (Node.elem t a ch) =
      renderTable images anc (Node.elem t' a' ch) := by
  rw [renderTable_eq_body, renderTable_eq_body, h]

/-- A table whose row renders a plain `td` cell in isolation. -/
def c3innerTable : Node :=
  Node.elem "table" [] [Node.elem "tr" [] [Node.elem "td" [] [Node.text "x"]]]

/-- The ancestor chain, too, is matched case-sensitively: `closest` walks
above the rendered element, so a table under a `header` ancestor renders
its row cells as `th` via `closest('header')`, while the same table under
`HEADER` - which only differs in casing - renders them as `td`.  Hence
lower-casing a tag that lower-cases to `thead` or `header` can change the
rendering of a descendant table, which is why the amended theorem below
excludes those two names. -/
theorem c3_ancestor_case :
    renderElement [] false (Node.elem "HEADER" [] [c3innerTable]) ≠
      renderElement [] false (Node.elem "header" [] [c3innerTable]) := by
  simp +decide [c3innerTable, lowStr, lowChar,
    renderElement, renderTable, tableBody, renderRow, renderChildren,
    rowsList, rowsSelf, collectList, collectSelf, collectFL, collectFS,
    isHdrTag, joinS]

set_option maxHeartbeats 1600000 in
/-- C3 (amended): the dispatch of `renderElement`, the block-tag heuristic
and the `th`-cell comparison are case-insensitive (they compare the
lower-cased name), so lower-casing the tag of the element itself never
changes its rendering, provided the lower-cased tag is not `thead` or
`header`; but descendant selection (list items, table rows and cells,
image caption/nested-source elements) and the ancestor matching of
`closest('thead')/closest('header')` are case-sensitive, so trees whose
other tags - or a `thead`/`header`-like tag of the element itself - differ
only in casing may render differently (see the counterexamples). -/
theorem c3_root_tag_case_insensitive (images : JsMap) (anc : Bool)
    (t : String) (a : List (String × String)) (ch : List Node)
    (h : lowStr t ∉ ["thead", "header"]) :
    renderElement images anc (Node.elem (lowStr t) a ch) =
      renderElement images anc (Node.elem t a ch) := by
  have hl1 : ¬(lowStr t = "thead") := fun he =>
    h (by rw [he]; exact List.mem_cons_self _ _)
  have hl2 : ¬(lowStr t = "header") := fun he =>
    h (by rw [he]; exact List.mem_cons_of_mem _ (List.mem_cons_self _ _))
  have ht1 : ¬(t = "thead") := fun he => hl1 (by rw [he]; decide)
  have ht2 : ¬(t = "header") := fun he => hl2 (by rw [he]; decide)
  have hhdr : isHdrTag (lowStr t) = isHdrTag t := by
    unfold isHdrTag
    simp [hl1, hl2, ht1, ht2]
  have hrc : renderChildren images anc (Node.elem (lowStr t) a ch) =
      renderChildren images anc (Node.elem t a ch) := by
    rw [renderChildren_eq, renderChildren_eq, hhdr]
  have hri : renderImage images (Node.elem (lowStr t) a ch) =
      renderImage images (Node.elem t a ch) := rfl
  have htext : textContent (Node.elem (lowStr t) a ch) =
      textContent (Node.elem t a ch) := rfl
  have hattr : ∀ nm, getAttr (Node.elem (lowStr t) a ch) nm =
      getAttr (Node.elem t a ch) nm := fun _ => rfl
  have hhb : hasBlockElements (Node.elem (lowStr t) a ch) =
      hasBlockElements (Node.elem t a ch) := rfl
  have hec : elemChildren (Node.elem (lowStr t) a ch) =
      elemChildren (Node.elem t a ch) := rfl
  rw [renderElement]
  conv_rhs => rw [renderElement]
  rw [lowStr_idem, hrc, hri,
    renderList_tag images anc (if lowStr t = "ol" then "ol" else "ul")
      (lowStr t) t a a ch hhdr,
    htext, hattr "href", hattr "url", hhb, hec,
    renderTable_eq_body images anc (lowStr t) a ch,
    renderTable_eq_body images anc t a ch, hhdr]

/-- Witness for the amended C3 theorem at tag `FOO`, whose lower-cased
form is neither `thead` nor `header`. -/
theorem c3_witness :
    lowStr "FOO" ∉ ["thead", "header"] ∧
    renderElement [] false (Node.elem (lowStr "FOO") [] [Node.text "hi"]) =
      renderElement [] false (Node.elem "FOO" [] [Node.text "hi"]) :=
  ⟨by decide, c3_root_tag_case_insensitive [] false "FOO" [] [Node.text "hi"]
    (by decide)⟩


/-! ## C9: idempotence of the raw formatter

The proof proceeds in stages: whitespace and trim lemmas; the line
decomposition `splitNl`; the processed-line extraction `linesP` and its
invariance under whitespace affixes and trimming; the normalization
`gtltNorm` and the shape of its output; and finally the reconstruction of
the formatted text's lines. -/

/-- All characters of a list satisfy `isSpace`. -/
def allWs (l : List Char) : Prop := ∀ c ∈ l, isSpace c = true

theorem isSpace_gt : isSpace '>' = false := by decide

theorem isSpace_lt : isSpace '<' = false := by decide

theorem isSpace_nl : isSpace '\n' = true := by decide

theorem dropWhile_append_all {p : Char → Bool} {a b : List Char}
    (h : ∀ c ∈ a, p c = true) :
    (a ++ b).dropWhile p = b.dropWhile p := by
  induction a with
  | nil => rfl
  | cons c r ih =>
    simp only [List.cons_append, List.dropWhile_cons,
      h c (List.mem_cons_self c r)]
    exact ih (fun x hx => h x (List.mem_cons_of_mem c hx))

theorem dropWhile_append_ne_nil {p : Char → Bool} {a : List Char}
    (b : List Char) (h : a.dropWhile p ≠ []) :
    (a ++ b).dropWhile p = a.dropWhile p ++ b := by
  rw [List.dropWhile_append]
  simp [List.isEmpty_iff, h]

theorem takeWhile_append_ne_nil {p : Char → Bool} {a : List Char}
    (b : List Char) (h : a.dropWhile p ≠ []) :
    (a ++ b).takeWhile p = a.takeWhile p := by
  induction a with
  | nil => simp at h
  | cons c r ih =>
    by_cases hc : p c = true
    · simp only [List.cons_append, List.takeWhile_cons, hc]
      rw [List.dropWhile_cons, if_pos hc] at h
      simp [ih h]
    · rw [List.dropWhile_cons, if_neg hc] at h
      simp [List.takeWhile_cons, hc]

theorem mem_dropWhile {p : Char → Bool} {l : List Char} {x : Char}
    (h : x ∈ l.dropWhile p) : x ∈ l := by
  induction l with
  | nil => simp at h
  | cons c r ih =>
    rw [List.dropWhile_cons] at h
    split at h
    · exact List.mem_cons_of_mem c (ih h)
    · exact h

theorem mem_takeWhile {p : Char → Bool} {l : List Char} {x : Char}
    (h : x ∈ l.takeWhile p) : x ∈ l := by
  induction l with
  | nil => simp at h
  | cons c r ih =>
    rw [List.takeWhile_cons] at h
    split at h
    · rcases List.mem_cons.mp h with h | h
      · exact h ▸ List.mem_cons_self c r
      · exact List.mem_cons_of_mem c (ih h)
    · simp at h

theorem allWs_takeWhile (l : List Char) : allWs (l.takeWhile isSpace) := by
  intro c hc
  exact List.mem_takeWhile_imp hc

theorem trimL_ws_cons {c : Char} {l : List Char} (hc : isSpace c = true) :
    trimL (c :: l) = trimL l := by
  unfold trimL
  rw [List.dropWhile_cons, if_pos hc]

theorem trimL_append_ws {l w : List Char} (hw : allWs w) :
    trimL (l ++ w) = trimL l := by
  unfold trimL
  by_cases h : l.dropWhile isSpace = []
  · rw [List.dropWhile_append]
    simp only [h, List.isEmpty_nil, if_pos rfl]
    rw [List.dropWhile_eq_nil_iff.mpr hw]
    simp
  · rw [dropWhile_append_ne_nil w h, List.reverse_append]
    rw [dropWhile_append_all]
    intro c hc
    exact hw c (List.mem_reverse.mp hc)


theorem head_dropWhile_false {p : Char → Bool} :
    ∀ {l : List Char} {c : Char} {r : List Char},
      l.dropWhile p = c :: r → p c = false := by
  intro l
  induction l with
  | nil => intro c r h; simp at h
  | cons d ds ih =>
    intro c r h
    rw [List.dropWhile_cons] at h
    split at h
    · exact ih h
    · rename_i hd
      cases h
      simpa using hd

theorem dropWhile_eq_self_of_head {p : Char → Bool} {l : List Char}
    (h : ∀ c, l.head? = some c → p c = false) : l.dropWhile p = l := by
  cases l with
  | nil => rfl
  | cons c r =>
    rw [List.dropWhile_cons, if_neg]
    simp [h c rfl]

theorem getLast?_dropWhile {p : Char → Bool} {l : List Char}
    (h : l.dropWhile p ≠ []) : (l.dropWhile p).getLast? = l.getLast? := by
  conv_rhs => rw [← List.takeWhile_append_dropWhile (p := p) (l := l)]
  rw [List.getLast?_append_of_ne_nil _ h]

theorem trimL_head? {l : List Char} {c : Char}
    (h : (trimL l).head? = some c) : isSpace c = false := by
  unfold trimL at h
  rw [← List.getLast?_eq_head?_reverse] at h
  have hne : (((l.dropWhile isSpace).reverse).dropWhile isSpace) ≠ [] := by
    intro he
    rw [he] at h
    simp at h
  rw [getLast?_dropWhile hne, List.getLast?_eq_head?_reverse,
    List.reverse_reverse] at h
  cases hd : (l.dropWhile isSpace) with
  | nil => rw [hd] at h; simp at h
  | cons d ds =>
    rw [hd] at h
    simp only [List.head?_cons, Option.some.injEq] at h
    subst h
    exact head_dropWhile_false hd

theorem trimL_getLast? {l : List Char} {c : Char}
    (h : (trimL l).getLast? = some c) : isSpace c = false := by
  unfold trimL at h
  rw [List.getLast?_eq_head?_reverse, List.reverse_reverse] at h
  cases hd : ((l.dropWhile isSpace).reverse).dropWhile isSpace with
  | nil => rw [hd] at h; simp at h
  | cons d ds =>
    rw [hd] at h
    simp only [List.head?_cons, Option.some.injEq] at h
    subst h
    exact head_dropWhile_false hd

theorem trimL_idem (l : List Char) : trimL (trimL l) = trimL l := by
  have h1 : (trimL l).dropWhile isSpace = trimL l :=
    dropWhile_eq_self_of_head (fun c hc => trimL_head? hc)
  have h2 : ((trimL l).reverse).dropWhile isSpace = (trimL l).reverse := by
    apply dropWhile_eq_self_of_head
    intro c hc
    rw [← List.getLast?_eq_head?_reverse] at hc
    exact trimL_getLast? hc
  show (((trimL l).dropWhile isSpace).reverse.dropWhile isSpace).reverse =
    trimL l
  rw [h1, h2, List.reverse_reverse]

theorem mem_trimL {l : List Char} {x : Char} (h : x ∈ trimL l) : x ∈ l := by
  unfold trimL at h
  rw [List.mem_reverse] at h
  have h2 := mem_dropWhile h
  rw [List.mem_reverse] at h2
  exact mem_dropWhile h2

/-! ### The line decomposition -/

theorem splitNl_nil : splitNl [] = [[]] := rfl

theorem splitNl_cons_nl (l : List Char) :
    splitNl ('\n' :: l) = [] :: splitNl l := by
  rw [splitNl]
  simp

theorem splitNl_ne_nil (l : List Char) : splitNl l ≠ [] := by
  cases l with
  | nil => simp [splitNl]
  | cons c r =>
    rw [splitNl]
    split
    · simp
    · split <;> simp

theorem splitNl_cons_ne {c : Char} (hc : ¬(c = '\n')) (l : List Char)
    {h : List Char} {t : List (List Char)} (hs : splitNl l = h :: t) :
    splitNl (c :: l) = (c :: h) :: t := by
  rw [splitNl, if_neg hc, hs]

theorem noNl_mem_splitNl {l : List Char} :
    ∀ {seg : List Char}, seg ∈ splitNl l → '\n' ∉ seg := by
  induction l with
  | nil =>
    intro seg hseg
    rw [splitNl_nil] at hseg
    simp at hseg
    simp [hseg]
  | cons c r ih =>
    intro seg hseg
    by_cases hc : c = '\n'
    · subst hc
      rw [splitNl_cons_nl] at hseg
      rcases List.mem_cons.mp hseg with h | h
      · simp [h]
      · exact ih h
    · cases hs : splitNl r with
      | nil => exact absurd hs (splitNl_ne_nil r)
      | cons h t =>
        rw [splitNl_cons_ne hc r hs] at hseg
        rcases List.mem_cons.mp hseg with hm | hm
        · subst hm
          intro hmem
          rcases List.mem_cons.mp hmem with he | he
          · exact hc he.symm
          · exact ih (hs ▸ List.mem_cons_self h t) he
        · exact ih (hs ▸ List.mem_cons_of_mem h hm)

theorem splitNl_of_noNl {a : List Char} (h : '\n' ∉ a) : splitNl a = [a] := by
  induction a with
  | nil => rfl
  | cons c r ih =>
    have hc : ¬(c = '\n') := fun he => h (he ▸ List.mem_cons_self c r)
    have hr : '\n' ∉ r := fun hm => h (List.mem_cons_of_mem c hm)
    rw [splitNl_cons_ne hc r (ih hr)]

theorem splitNl_append_nl {a : List Char} (b : List Char) (h : '\n' ∉ a) :
    splitNl (a ++ '\n' :: b) = a :: splitNl b := by
  induction a with
  | nil => simp [splitNl_cons_nl]
  | cons c r ih =>
    have hc : ¬(c = '\n') := fun he => h (he ▸ List.mem_cons_self c r)
    have hr : '\n' ∉ r := fun hm => h (List.mem_cons_of_mem c hm)
    cases hs : splitNl (r ++ '\n' :: b) with
    | nil => exact absurd hs (splitNl_ne_nil _)
    | cons h2 t2 =>
      rw [List.cons_append, splitNl_cons_ne hc _ hs]
      rw [ih hr] at hs
      cases hs
      rfl


/-! ### Processed lines: split, trim, drop blanks -/

/-- The lines the formatting loop actually processes: split at newlines,
trim each line, drop the blank ones. -/
def linesP (S : List Char) : List (List Char) :=
  ((splitNl S).map trimL).filter (fun s => !s.isEmpty)

theorem linesP_nlCons (Z : List Char) : linesP ('\n' :: Z) = linesP Z := by
  unfold linesP
  rw [splitNl_cons_nl]
  simp [trimL]

theorem linesP_wsCons {c : Char} (Z : List Char) (hc : isSpace c = true)
    (hnl : ¬(c = '\n')) : linesP (c :: Z) = linesP Z := by
  unfold linesP
  cases hs : splitNl Z with
  | nil => exact absurd hs (splitNl_ne_nil Z)
  | cons h t =>
    rw [splitNl_cons_ne hnl Z hs]
    simp only [List.map_cons, trimL_ws_cons hc]

theorem linesP_allWs {w : List Char} (hw : allWs w) : linesP w = [] := by
  induction w with
  | nil => rfl
  | cons c r ih =>
    have hc : isSpace c = true := hw c (List.mem_cons_self c r)
    have hr : allWs r := fun x hx => hw x (List.mem_cons_of_mem c hx)
    by_cases hnl : c = '\n'
    · subst hnl
      rw [linesP_nlCons]
      exact ih hr
    · rw [linesP_wsCons r hc hnl]
      exact ih hr

theorem linesP_ws_front {w : List Char} (S : List Char) (hw : allWs w) :
    linesP (w ++ S) = linesP S := by
  induction w with
  | nil => rfl
  | cons c r ih =>
    have hc : isSpace c = true := hw c (List.mem_cons_self c r)
    have hr : allWs r := fun x hx => hw x (List.mem_cons_of_mem c hx)
    by_cases hnl : c = '\n'
    · subst hnl
      rw [List.cons_append, linesP_nlCons]
      exact ih hr
    · rw [List.cons_append, linesP_wsCons _ hc hnl]
      exact ih hr

theorem linesP_ws_suffix {w : List Char} (hw : allWs w) (S : List Char) :
    linesP (S ++ w) = linesP S := by
  have H : ∀ (n : Nat) (S : List Char), S.length = n →
      linesP (S ++ w) = linesP S := by
    intro n
    induction n using Nat.strong_induction_on with
    | _ n ih =>
    intro S hn
    cases hdw : S.dropWhile (fun c => !(c = '\n')) with
    | nil =>
      have hnoNl : '\n' ∉ S := by
        intro hmem
        have hne : S.dropWhile (fun c => !(c = '\n')) ≠ [] := by
          intro he
          have := List.dropWhile_eq_nil_iff.mp he '\n' hmem
          simp at this
        exact hne hdw
      by_cases hwnl : '\n' ∈ w
      · cases hdw2 : w.dropWhile (fun c => !(c = '\n')) with
        | nil =>
          exfalso
          have := List.dropWhile_eq_nil_iff.mp hdw2 '\n' hwnl
          simp at this
        | cons d w2 =>
          have hd : d = '\n' := by
            have := head_dropWhile_false hdw2
            simpa using this
          subst hd
          have hw1nl : '\n' ∉ w.takeWhile (fun c => !(c = '\n')) := by
            intro hm
            have := List.mem_takeWhile_imp hm
            simp at this
          have hSw : S ++ w =
              (S ++ w.takeWhile (fun c => !(c = '\n'))) ++ '\n' :: w2 := by
            rw [List.append_assoc]
            congr 1
            conv_lhs => rw [← List.takeWhile_append_dropWhile
              (p := fun c => !(c = '\n')) (l := w)]
            rw [hdw2]
          have hw2 : allWs w2 := by
            intro x hx
            apply hw
            have hxd : x ∈ w.dropWhile (fun c => !(c = '\n')) := by
              rw [hdw2]
              exact List.mem_cons_of_mem _ hx
            exact mem_dropWhile hxd
          have htw : allWs (w.takeWhile (fun c => !(c = '\n'))) := by
            intro x hx
            exact hw x (mem_takeWhile hx)
          rw [hSw]
          unfold linesP
          rw [splitNl_append_nl _ (by
            intro hm
            rcases List.mem_append.mp hm with hm | hm
            · exact hnoNl hm
            · exact hw1nl hm)]
          rw [splitNl_of_noNl hnoNl]
          simp only [List.map_cons, List.map_nil, List.filter_cons,
            List.filter_nil]
          rw [trimL_append_ws htw]
          have hrest := linesP_allWs hw2
          unfold linesP at hrest
          rw [hrest]
      · have hwAll : '\n' ∉ S ++ w := by
          intro hm
          rcases List.mem_append.mp hm with hm | hm
          · exact hnoNl hm
          · exact hwnl hm
        unfold linesP
        rw [splitNl_of_noNl hwAll, splitNl_of_noNl hnoNl]
        simp only [List.map_cons, List.map_nil, List.filter_cons,
          List.filter_nil]
        rw [trimL_append_ws hw]
    | cons d S2 =>
      have hd : d = '\n' := by
        have := head_dropWhile_false hdw
        simpa using this
      subst hd
      have hS1 : S.takeWhile (fun c => !(c = '\n')) ++ '\n' :: S2 = S := by
        conv_rhs => rw [← List.takeWhile_append_dropWhile
          (p := fun c => !(c = '\n')) (l := S)]
        rw [hdw]
      have hS1nl : '\n' ∉ S.takeWhile (fun c => !(c = '\n')) := by
        intro hm
        have := List.mem_takeWhile_imp hm
        simp at this
      have hlen : S2.length < n := by
        rw [← hn, ← hS1, List.length_append, List.length_cons]
        omega
      have hrec := ih S2.length hlen S2 rfl
      unfold linesP at hrec ⊢
      rw [← hS1, List.append_assoc, List.cons_append]
      rw [splitNl_append_nl _ hS1nl, splitNl_append_nl _ hS1nl]
      simp only [List.map_cons, List.filter_cons]
      rw [hrec]
  exact H S.length S rfl


theorem rev_decomp (p : Char → Bool) (Y : List Char) :
    Y = (Y.reverse.dropWhile p).reverse ++ (Y.reverse.takeWhile p).reverse := by
  conv_lhs => rw [← List.reverse_reverse Y,
    ← List.takeWhile_append_dropWhile (p := p) (l := Y.reverse),
    List.reverse_append]

theorem linesP_trim (S : List Char) : linesP (trimL S) = linesP S := by
  have h1 : linesP S = linesP (S.dropWhile isSpace) := by
    conv_lhs => rw [← List.takeWhile_append_dropWhile (p := isSpace) (l := S)]
    exact linesP_ws_front _ (allWs_takeWhile S)
  have h2 := rev_decomp isSpace (S.dropWhile isSpace)
  have hws :
      allWs (((S.dropWhile isSpace).reverse.takeWhile isSpace).reverse) := by
    intro x hx
    rw [List.mem_reverse] at hx
    exact List.mem_takeWhile_imp hx
  rw [h1]
  conv_rhs => rw [h2]
  rw [linesP_ws_suffix hws]
  rfl


/-! ### Shape of the normalized text -/

/-- No `>` in the list is followed by a whitespace run that reaches a `<`:
within one output line of the normalization this is the statement that the
global replace left no match behind. -/
def noGtWsLt : List Char → Bool
  | [] => true
  | c :: rest =>
    (if c = '>' then
      match rest.dropWhile isSpace with
      | '<' :: _ => false
      | _ => true
    else true) && noGtWsLt rest

/-- Every match of the greater-than/whitespace/less-than pattern in the
list has a newline inside its whitespace run. -/
def okStr : List Char → Bool
  | [] => true
  | c :: rest =>
    (if c = '>' then
      match rest.dropWhile isSpace with
      | '<' :: _ => (rest.takeWhile isSpace).contains '\n'
      | _ => true
    else true) && okStr rest

theorem gtltNorm_nil : gtltNorm [] = [] := by rw [gtltNorm]

theorem gtltNorm_cons_ne {c : Char} (rest : List Char) (h : ¬(c = '>')) :
    gtltNorm (c :: rest) = c :: gtltNorm rest := by
  rw [gtltNorm, if_neg h]

theorem gtltNorm_gt_match {rest r3 : List Char}
    (h : rest.dropWhile isSpace = '<' :: r3) :
    gtltNorm ('>' :: rest) = '>' :: '\n' :: '<' :: gtltNorm r3 := by
  rw [gtltNorm, if_pos rfl, dif_pos (by rw [h]; rfl)]
  rw [h]
  rfl

theorem gtltNorm_gt_nomatch {rest : List Char}
    (h : ¬((rest.dropWhile isSpace).head? = some '<')) :
    gtltNorm ('>' :: rest) = '>' :: gtltNorm rest := by
  rw [gtltNorm, if_pos rfl, dif_neg h]

theorem gtltNorm_gt_nil {rest : List Char}
    (h : rest.dropWhile isSpace = []) :
    gtltNorm ('>' :: rest) = '>' :: gtltNorm rest := by
  apply gtltNorm_gt_nomatch
  rw [h]
  simp

theorem gtltNorm_gt_other {rest r3 : List Char} {d : Char}
    (h : rest.dropWhile isSpace = d :: r3) (hd : ¬(d = '<')) :
    gtltNorm ('>' :: rest) = '>' :: gtltNorm rest := by
  apply gtltNorm_gt_nomatch
  rw [h]
  simp only [List.head?_cons, Option.some.injEq]
  exact hd

theorem gtltNorm_append_noGt {p : List Char} (x : List Char)
    (h : '>' ∉ p) : gtltNorm (p ++ x) = p ++ gtltNorm x := by
  induction p with
  | nil => rfl
  | cons c r ih =>
    have hc : ¬(c = '>') := fun he => h (he ▸ List.mem_cons_self c r)
    have hr : '>' ∉ r := fun hm => h (List.mem_cons_of_mem c hm)
    rw [List.cons_append, gtltNorm_cons_ne _ hc, ih hr, List.cons_append]

theorem gtltNorm_head (y : List Char) : (gtltNorm y).head? = y.head? := by
  cases y with
  | nil => rw [gtltNorm_nil]
  | cons c rest =>
    by_cases hc : c = '>'
    · subst hc
      by_cases hlt : (rest.dropWhile isSpace).head? = some '<'
      · cases hdw : rest.dropWhile isSpace with
        | nil => rw [hdw] at hlt; simp at hlt
        | cons d r3 =>
          rw [hdw] at hlt
          simp only [List.head?_cons, Option.some.injEq] at hlt
          subst hlt
          rw [gtltNorm_gt_match hdw]
          rfl
      · rw [gtltNorm_gt_nomatch hlt]
        rfl
    · rw [gtltNorm_cons_ne _ hc]
      rfl

theorem dropWhile_gtltNorm (y : List Char) :
    ((gtltNorm y).dropWhile isSpace).head? = (y.dropWhile isSpace).head? := by
  have hdecomp : gtltNorm y =
      y.takeWhile isSpace ++ gtltNorm (y.dropWhile isSpace) := by
    conv_lhs => rw [← List.takeWhile_append_dropWhile (p := isSpace) (l := y)]
    exact gtltNorm_append_noGt _ (fun hm => by
      have := List.mem_takeWhile_imp hm
      rw [isSpace_gt] at this
      exact Bool.false_ne_true this)
  rw [hdecomp, dropWhile_append_all (fun c hc => List.mem_takeWhile_imp hc)]
  cases hdw : y.dropWhile isSpace with
  | nil => rw [gtltNorm_nil]; rfl
  | cons d r =>
    have hd : isSpace d = false := head_dropWhile_false hdw
    have hh : (gtltNorm (d :: r)).head? = some d := by
      rw [gtltNorm_head]
      rfl
    cases hg : gtltNorm (d :: r) with
    | nil => rw [hg] at hh; simp at hh
    | cons e es =>
      rw [hg] at hh
      simp only [List.head?_cons, Option.some.injEq] at hh
      subst hh
      rw [List.dropWhile_cons, hd]
      simp

theorem okStr_gtltNorm (x : List Char) : okStr (gtltNorm x) = true := by
  have H : ∀ (n : Nat) (x : List Char), x.length = n →
      okStr (gtltNorm x) = true := by
    intro n
    induction n using Nat.strong_induction_on with
    | _ n ih =>
    intro x hn
    cases x with
    | nil => rw [gtltNorm_nil]; rfl
    | cons c rest =>
      have hlen : rest.length < n := by
        rw [← hn]; simp [List.length_cons]
      by_cases hc : c = '>'
      · subst hc
        cases hdw : rest.dropWhile isSpace with
        | nil =>
          rw [gtltNorm_gt_nil hdw]
          have htr := dropWhile_gtltNorm rest
          rw [hdw] at htr
          have hnil : (gtltNorm rest).dropWhile isSpace = [] := by
            cases hcase : (gtltNorm rest).dropWhile isSpace with
            | nil => rfl
            | cons e es => rw [hcase] at htr; simp at htr
          rw [okStr, if_pos rfl, hnil]
          simp only [Bool.true_and]
          exact ih rest.length hlen rest rfl
        | cons d r3 =>
          by_cases hd : d = '<'
          · subst hd
            rw [gtltNorm_gt_match hdw]
            have hr3 : r3.length < n := by
              have h1 : (rest.dropWhile isSpace).length ≤ rest.length :=
                (List.dropWhile_suffix isSpace).length_le
              rw [hdw] at h1
              simp only [List.length_cons] at h1
              omega
            rw [okStr, if_pos rfl]
            have hstep : (('\n' :: '<' :: gtltNorm r3).dropWhile isSpace) =
                '<' :: gtltNorm r3 := by
              rw [List.dropWhile_cons, if_pos isSpace_nl,
                List.dropWhile_cons, if_neg (by rw [isSpace_lt]; simp)]
            rw [hstep]
            have htake : (('\n' :: '<' :: gtltNorm r3).takeWhile isSpace) =
                ['\n'] := by
              rw [List.takeWhile_cons, if_pos isSpace_nl,
                List.takeWhile_cons, if_neg (by rw [isSpace_lt]; simp)]
            rw [htake]
            simp only [List.contains_cons, beq_self_eq_true, Bool.true_or,
              Bool.true_and]
            rw [okStr]
            simp only [if_neg (by decide : ¬('\n' = '>')), Bool.true_and]
            rw [okStr]
            simp only [if_neg (by decide : ¬('<' = '>')), Bool.true_and]
            exact ih r3.length hr3 r3 rfl
          · rw [gtltNorm_gt_other hdw hd]
            have htr := dropWhile_gtltNorm rest
            rw [hdw] at htr
            rw [okStr, if_pos rfl]
            cases hcase : (gtltNorm rest).dropWhile isSpace with
            | nil =>
              simp only [Bool.true_and]
              exact ih rest.length hlen rest rfl
            | cons e es =>
              rw [hcase] at htr
              simp only [List.head?_cons, Option.some.injEq] at htr
              subst htr
              have : (match e :: es with
                  | '<' :: _ => ((gtltNorm rest).takeWhile isSpace).contains '\n'
                  | _ => true) = true := by
                split
                · rename_i heq
                  cases heq
                  exact absurd rfl hd
                · rfl
              rw [this]
              simp only [Bool.true_and]
              exact ih rest.length hlen rest rfl
      · rw [gtltNorm_cons_ne _ hc]
        rw [okStr, if_neg hc]
        simp only [Bool.true_and]
        exact ih rest.length hlen rest rfl
  exact H (x.length) x rfl


theorem noGtWsLt_tail {c : Char} {rest : List Char}
    (h : noGtWsLt (c :: rest) = true) : noGtWsLt rest = true := by
  rw [noGtWsLt, Bool.and_eq_true] at h
  exact h.2

theorem noGtWsLt_cons_ne {c : Char} {rest : List Char} (hc : ¬(c = '>')) :
    noGtWsLt (c :: rest) = noGtWsLt rest := by
  rw [noGtWsLt, if_neg hc, Bool.true_and]

theorem noGtWsLt_cons_gt {rest : List Char} {u : List Char}
    (h : noGtWsLt ('>' :: rest) = true) :
    rest.dropWhile isSpace ≠ '<' :: u := by
  intro he
  rw [noGtWsLt, if_pos rfl, he, Bool.and_eq_true] at h
  exact Bool.false_ne_true h.1

theorem noGtWsLt_cons_gt_intro {rest : List Char}
    (h1 : noGtWsLt rest = true)
    (h2 : ∀ u, rest.dropWhile isSpace ≠ '<' :: u) :
    noGtWsLt ('>' :: rest) = true := by
  rw [noGtWsLt, if_pos rfl, Bool.and_eq_true]
  refine ⟨?_, h1⟩
  cases hd : rest.dropWhile isSpace with
  | nil => rfl
  | cons d u =>
    split
    · rename_i heq
      exact absurd hd (heq ▸ h2 _)
    · rfl

theorem noGtWsLt_dropWhile {p : Char → Bool} {l : List Char}
    (h : noGtWsLt l = true) : noGtWsLt (l.dropWhile p) = true := by
  induction l with
  | nil => exact h
  | cons c r ih =>
    rw [List.dropWhile_cons]
    split
    · exact ih (noGtWsLt_tail h)
    · exact h

theorem noGtWsLt_append_ws {a w : List Char} (hw : allWs w)
    (h : noGtWsLt (a ++ w) = true) : noGtWsLt a = true := by
  induction a with
  | nil => rfl
  | cons c a2 ih =>
    rw [List.cons_append] at h
    have h2 := ih (noGtWsLt_tail h)
    by_cases hc : c = '>'
    · subst hc
      apply noGtWsLt_cons_gt_intro h2
      intro u he
      have hne : a2.dropWhile isSpace ≠ [] := by
        rw [he]; simp
      have : (a2 ++ w).dropWhile isSpace = '<' :: (u ++ w) := by
        rw [dropWhile_append_ne_nil w hne, he]
        rfl
      exact noGtWsLt_cons_gt h this
    · rw [noGtWsLt_cons_ne hc]
      exact h2

theorem splitNl_head (l : List Char) :
    (splitNl l).head? = some (l.takeWhile (fun c => !(c = '\n'))) := by
  induction l with
  | nil => rfl
  | cons c r ih =>
    by_cases hc : c = '\n'
    · subst hc
      rw [splitNl_cons_nl]
      simp
    · cases hs : splitNl r with
      | nil => exact absurd hs (splitNl_ne_nil r)
      | cons h t =>
        rw [splitNl_cons_ne hc r hs]
        rw [hs] at ih
        simp only [List.head?_cons, Option.some.injEq] at ih ⊢
        rw [List.takeWhile_cons, if_pos (by simp [hc])]
        rw [ih]

theorem segOk {S : List Char} (hok : okStr S = true) :
    ∀ {seg : List Char}, seg ∈ splitNl S → noGtWsLt seg = true := by
  induction S with
  | nil =>
    intro seg hseg
    rw [splitNl_nil] at hseg
    simp at hseg
    subst hseg
    rfl
  | cons c rest ih =>
    intro seg hseg
    have hok2 : okStr rest = true := by
      rw [okStr, Bool.and_eq_true] at hok
      exact hok.2
    by_cases hc : c = '\n'
    · subst hc
      rw [splitNl_cons_nl] at hseg
      rcases List.mem_cons.mp hseg with h | h
      · subst h; rfl
      · exact ih hok2 h
    · cases hs : splitNl rest with
      | nil => exact absurd hs (splitNl_ne_nil rest)
      | cons h t =>
        rw [splitNl_cons_ne hc rest hs] at hseg
        rcases List.mem_cons.mp hseg with hm | hm
        · subst hm
          have hsegs : noGtWsLt h = true :=
            ih hok2 (hs ▸ List.mem_cons_self h t)
          by_cases hcgt : c = '>'
          · subst hcgt
            apply noGtWsLt_cons_gt_intro hsegs
            intro u he
            -- h is the first line of rest
            have hhead := splitNl_head rest
            rw [hs] at hhead
            simp only [List.head?_cons, Option.some.injEq] at hhead
            have hne : h.dropWhile isSpace ≠ [] := by
              rw [he]; simp
            have hrt : rest.takeWhile (fun x => !(x = '\n')) ++
                rest.dropWhile (fun x => !(x = '\n')) = rest :=
              List.takeWhile_append_dropWhile _ _
            have hdw : rest.dropWhile isSpace =
                '<' :: (u ++ rest.dropWhile (fun x => !(x = '\n'))) := by
              conv_lhs => rw [← hrt]
              rw [← hhead, dropWhile_append_ne_nil _ hne, he]
              rfl
            have htw : rest.takeWhile isSpace = h.takeWhile isSpace := by
              conv_lhs => rw [← hrt]
              rw [← hhead, takeWhile_append_ne_nil _ hne]
            rw [okStr, if_pos rfl, Bool.and_eq_true, hdw] at hok
            have hcontain := hok.1
            rw [htw] at hcontain
            have hmem : '\n' ∈ h.takeWhile isSpace := by
              simpa using hcontain
            have hnl : '\n' ∉ h := by
              apply noNl_mem_splitNl
              exact hs ▸ List.mem_cons_self h t
            exact hnl (mem_takeWhile hmem)
          · rw [noGtWsLt_cons_ne hcgt]
            exact hsegs
        · exact ih hok2 (hs ▸ List.mem_cons_of_mem h hm)

theorem noGtWsLt_trim {l : List Char} (h : noGtWsLt l = true) :
    noGtWsLt (trimL l) = true := by
  have h1 : noGtWsLt (l.dropWhile isSpace) = true := noGtWsLt_dropWhile h
  have h2 := rev_decomp isSpace (l.dropWhile isSpace)
  rw [h2] at h1
  have hws :
      allWs (((l.dropWhile isSpace).reverse.takeWhile isSpace).reverse) := by
    intro x hx
    rw [List.mem_reverse] at hx
    exact List.mem_takeWhile_imp hx
  exact noGtWsLt_append_ws hws h1


/-- The last character, when present, is not whitespace. -/
def lastNotWs (l : List Char) : Prop :=
  ∀ c, l.getLast? = some c → isSpace c = false

theorem allWs_of_dropWhile_nil {l : List Char}
    (h : l.dropWhile isSpace = []) : allWs l :=
  fun c hc => List.dropWhile_eq_nil_iff.mp h c hc

theorem lastNotWs_of_cons {c : Char} {l : List Char} (hne : l ≠ [])
    (h : lastNotWs (c :: l)) : lastNotWs l := by
  intro x hx
  apply h
  cases l with
  | nil => exact absurd rfl hne
  | cons d r => exact hx

theorem getLast?_of_cons {c x : Char} {l : List Char} (hne : l ≠ [])
    (h : (c :: l).getLast? = some x) : l.getLast? = some x := by
  cases l with
  | nil => exact absurd rfl hne
  | cons d r => exact h

theorem not_allWs_of_lastNotWs {l : List Char} (hne : l ≠ [])
    (h : lastNotWs l) : ¬ allWs l := by
  intro hws
  cases hl : l.getLast? with
  | none => rw [List.getLast?_eq_none_iff] at hl; exact hne hl
  | some c =>
    have h1 := h c hl
    have h2 := hws c (List.mem_of_mem_getLast? hl)
    rw [h1] at h2
    exact Bool.false_ne_true h2

theorem gtltNorm_line_match {l : List Char} :
    ∀ {rest r3 : List Char}, lastNotWs l → noGtWsLt l = true →
      l.getLast? = some '>' → rest.dropWhile isSpace = '<' :: r3 →
      gtltNorm (l ++ rest) = l ++ '\n' :: '<' :: gtltNorm r3 := by
  induction l with
  | nil =>
    intro rest r3 _ _ hgt _
    simp at hgt
  | cons c l2 ih =>
    intro rest r3 hlast hgood hgt hdw
    cases l2 with
    | nil =>
      simp only [List.getLast?_singleton, Option.some.injEq] at hgt
      subst hgt
      rw [List.cons_append, List.nil_append, gtltNorm_gt_match hdw]
      rfl
    | cons d l3 =>
      have hne : d :: l3 ≠ [] := by simp
      have hlast2 := lastNotWs_of_cons hne hlast
      have hgood2 := noGtWsLt_tail hgood
      have hgt2 := getLast?_of_cons hne hgt
      by_cases hc : c = '>'
      · subst hc
        cases hdl : (d :: l3).dropWhile isSpace with
        | nil =>
          exact absurd (allWs_of_dropWhile_nil hdl)
            (not_allWs_of_lastNotWs hne hlast2)
        | cons e u =>
          have he : ¬(e = '<') := by
            intro heq
            subst heq
            exact noGtWsLt_cons_gt hgood hdl
          have hdw2 : ((d :: l3) ++ rest).dropWhile isSpace =
              e :: (u ++ rest) := by
            rw [dropWhile_append_ne_nil rest (by rw [hdl]; simp), hdl]
            rfl
          rw [List.cons_append, gtltNorm_gt_nomatch (by
            rw [hdw2]
            simp only [List.head?_cons, Option.some.injEq]
            exact he)]
          rw [ih hlast2 hgood2 hgt2 hdw]
          rfl
      · rw [List.cons_append, gtltNorm_cons_ne _ hc,
          ih hlast2 hgood2 hgt2 hdw]
        rfl

theorem gtltNorm_line_nomatch {l : List Char} :
    ∀ {rest : List Char}, lastNotWs l → noGtWsLt l = true →
      ¬(l.getLast? = some '>' ∧
        (rest.dropWhile isSpace).head? = some '<') →
      gtltNorm (l ++ rest) = l ++ gtltNorm rest := by
  induction l with
  | nil => intro rest _ _ _; rfl
  | cons c l2 ih =>
    intro rest hlast hgood hcond
    cases l2 with
    | nil =>
      by_cases hc : c = '>'
      · subst hc
        have hhd : ¬((rest.dropWhile isSpace).head? = some '<') := by
          intro hh
          exact hcond ⟨rfl, hh⟩
        rw [List.cons_append, List.nil_append, gtltNorm_gt_nomatch hhd]
        rfl
      · rw [List.cons_append, List.nil_append, gtltNorm_cons_ne _ hc]
        rfl
    | cons d l3 =>
      have hne : d :: l3 ≠ [] := by simp
      have hlast2 := lastNotWs_of_cons hne hlast
      have hgood2 := noGtWsLt_tail hgood
      have hcond2 : ¬((d :: l3).getLast? = some '>' ∧
          (rest.dropWhile isSpace).head? = some '<') := by
        intro ⟨h1, h2⟩
        exact hcond ⟨h1, h2⟩
      by_cases hc : c = '>'
      · subst hc
        cases hdl : (d :: l3).dropWhile isSpace with
        | nil =>
          exact absurd (allWs_of_dropWhile_nil hdl)
            (not_allWs_of_lastNotWs hne hlast2)
        | cons e u =>
          have he : ¬(e = '<') := by
            intro heq
            subst heq
            exact noGtWsLt_cons_gt hgood hdl
          have hdw2 : ((d :: l3) ++ rest).dropWhile isSpace =
              e :: (u ++ rest) := by
            rw [dropWhile_append_ne_nil rest (by rw [hdl]; simp), hdl]
            rfl
          rw [List.cons_append, gtltNorm_gt_nomatch (by
            rw [hdw2]
            simp only [List.head?_cons, Option.some.injEq]
            exact he)]
          rw [ih hlast2 hgood2 hcond2]
          rfl
      · rw [List.cons_append, gtltNorm_cons_ne _ hc,
          ih hlast2 hgood2 hcond2]
        rfl


/-! ### Reassembling the formatted output -/

/-- The indent at which a line is printed (closing tags step back). -/
def ind2Of (ind : Nat) (ln : List Char) : Nat :=
  if ['<', '/'].isPrefixOf ln then ind - 1 else ind

/-- The indent for the following line. -/
def indNext (ind : Nat) (ln : List Char) : Nat :=
  if incCond ln then ind2Of ind ln + 1 else ind2Of ind ln

/-- The formatting loop on already-trimmed, non-blank lines. -/
def fmtLines : Nat → List (List Char) → List Char
  | _, [] => []
  | ind, ln :: rest =>
    indentSp (ind2Of ind ln) ++ ln ++ '\n' :: fmtLines (indNext ind ln) rest

/-- The tail of the formatted output: each further line preceded by its
newline and indent. -/
def nlJoin : Nat → List (List Char) → List Char
  | _, [] => []
  | ind, ln :: rest =>
    '\n' :: (indentSp (ind2Of ind ln) ++ ln ++ nlJoin (indNext ind ln) rest)

theorem fmtLoop_eq (raws : List (List Char)) : ∀ (ind : Nat),
    fmtLoop ind raws =
      fmtLines ind ((raws.map trimL).filter (fun s => !s.isEmpty)) := by
  induction raws with
  | nil => intro ind; rfl
  | cons rawLn rest ih =>
    intro ind
    rw [fmtLoop]
    by_cases he : (trimL rawLn).isEmpty
    · rw [if_pos he]
      simp only [List.map_cons, List.filter_cons, he]
      exact ih ind
    · rw [if_neg he]
      have hcons : ((rawLn :: rest).map trimL).filter (fun s => !s.isEmpty) =
          trimL rawLn :: ((rest.map trimL).filter (fun s => !s.isEmpty)) := by
        simp [List.filter_cons, he]
      rw [hcons, fmtLines]
      dsimp only
      rw [ih]
      simp [ind2Of, indNext]

theorem fmtLines_shape (rest : List (List Char)) :
    ∀ (ind : Nat) (ln : List Char),
    fmtLines ind (ln :: rest) =
      indentSp (ind2Of ind ln) ++ ln ++
        (nlJoin (indNext ind ln) rest ++ ['\n']) := by
  induction rest with
  | nil =>
    intro ind ln
    rw [fmtLines, fmtLines, nlJoin]
    simp
  | cons l2 r2 ih =>
    intro ind ln
    rw [fmtLines, ih, nlJoin]
    simp [List.append_assoc]

theorem indentSp_allWs (n : Nat) : allWs (indentSp n) := by
  intro c hc
  unfold indentSp at hc
  rw [List.eq_of_mem_replicate hc]
  rfl

theorem indentSp_noNl (n : Nat) : '\n' ∉ indentSp n := by
  intro hc
  unfold indentSp at hc
  have := List.eq_of_mem_replicate hc
  simp at this

theorem indentSp_noGt (n : Nat) : '>' ∉ indentSp n := by
  intro hc
  unfold indentSp at hc
  have := List.eq_of_mem_replicate hc
  simp at this

theorem trimL_ws_front {w : List Char} (l : List Char) (hw : allWs w) :
    trimL (w ++ l) = trimL l := by
  induction w with
  | nil => rfl
  | cons c r ih =>
    rw [List.cons_append,
      trimL_ws_cons (hw c (List.mem_cons_self c r))]
    exact ih (fun x hx => hw x (List.mem_cons_of_mem c hx))

theorem splitNl_prefix_noNl {w : List Char} (hnl : '\n' ∉ w)
    {X : List Char} {h : List Char} {t : List (List Char)}
    (hs : splitNl X = h :: t) : splitNl (w ++ X) = (w ++ h) :: t := by
  induction w with
  | nil => exact hs
  | cons c r ih =>
    have hc : ¬(c = '\n') := fun he => hnl (he ▸ List.mem_cons_self c r)
    have hr : '\n' ∉ r := fun hm => hnl (List.mem_cons_of_mem c hm)
    rw [List.cons_append, splitNl_cons_ne hc _ (ih hr)]
    rfl

theorem gtltNorm_of_noGt {p : List Char} (h : '>' ∉ p) : gtltNorm p = p := by
  have := gtltNorm_append_noGt (p := p) [] h
  rw [List.append_nil, gtltNorm_nil, List.append_nil] at this
  exact this

theorem gtltNorm_append_ws {w : List Char} (hw : allWs w) (S : List Char) :
    gtltNorm (S ++ w) = gtltNorm S ++ w := by
  have hwg : '>' ∉ w := by
    intro hm
    have := hw '>' hm
    rw [isSpace_gt] at this
    exact Bool.false_ne_true this
  have hwd : w.dropWhile isSpace = [] := List.dropWhile_eq_nil_iff.mpr hw
  have H : ∀ (n : Nat) (S : List Char), S.length = n →
      gtltNorm (S ++ w) = gtltNorm S ++ w := by
    intro n
    induction n using Nat.strong_induction_on with
    | _ n ih =>
    intro S hn
    cases S with
    | nil =>
      rw [List.nil_append, gtltNorm_nil, List.nil_append]
      exact gtltNorm_of_noGt hwg
    | cons c S2 =>
      have hlen : S2.length < n := by rw [← hn]; simp
      by_cases hc : c = '>'
      · subst hc
        cases hdw : S2.dropWhile isSpace with
        | nil =>
          have hdw2 : (S2 ++ w).dropWhile isSpace = [] := by
            rw [List.dropWhile_append, hdw]
            simpa using hwd
          rw [List.cons_append, gtltNorm_gt_nil hdw2, gtltNorm_gt_nil hdw,
            ih S2.length hlen S2 rfl]
          rfl
        | cons d u =>
          have hdw2 : (S2 ++ w).dropWhile isSpace = d :: (u ++ w) := by
            rw [dropWhile_append_ne_nil w (by rw [hdw]; simp), hdw]
            rfl
          by_cases hd : d = '<'
          · subst hd
            have hu : u.length < n := by
              have h1 : (S2.dropWhile isSpace).length ≤ S2.length :=
                (List.dropWhile_suffix isSpace).length_le
              rw [hdw] at h1
              simp only [List.length_cons] at h1
              omega
            rw [List.cons_append, gtltNorm_gt_match hdw2,
              gtltNorm_gt_match hdw, ih u.length hu u rfl]
            rfl
          · rw [List.cons_append, gtltNorm_gt_other hdw2 hd,
              gtltNorm_gt_other hdw hd, ih S2.length hlen S2 rfl]
            rfl
      · rw [List.cons_append, gtltNorm_cons_ne _ hc,
          gtltNorm_cons_ne _ hc, ih S2.length hlen S2 rfl]
        rfl
  exact H S.length S rfl


/-! ### Good lines and the processed lines of the normalized text -/

/-- A line the formatting loop emits: non-blank, already trimmed, without
newlines, and with no leftover match of the replace pattern. -/
def GoodLine (l : List Char) : Prop :=
  l ≠ [] ∧ trimL l = l ∧ '\n' ∉ l ∧ noGtWsLt l = true

/-- The lines the formatting loop processes for an input text. -/
def linesOf (X : List Char) : List (List Char) := linesP (gtltNorm X)

theorem good_lastNotWs {l : List Char} (h : GoodLine l) : lastNotWs l := by
  intro c hc
  rw [← h.2.1] at hc
  exact trimL_getLast? hc

theorem good_headNotWs {l : List Char} (h : GoodLine l) :
    ∀ c, l.head? = some c → isSpace c = false := by
  intro c hc
  rw [← h.2.1] at hc
  exact trimL_head? hc

theorem linesP_good {S : List Char} (hok : okStr S = true) :
    ∀ ln ∈ linesP S, GoodLine ln := by
  intro ln hln
  unfold linesP at hln
  obtain ⟨hmem, hne⟩ := List.mem_filter.mp hln
  obtain ⟨seg, hseg, heq⟩ := List.mem_map.mp hmem
  subst heq
  refine ⟨?_, trimL_idem seg, ?_, ?_⟩
  · intro he
    rw [he] at hne
    simp at hne
  · intro hm
    exact noNl_mem_splitNl hseg (mem_trimL hm)
  · exact noGtWsLt_trim (segOk hok hseg)

theorem linesOf_good {X : List Char} : ∀ ln ∈ linesOf X, GoodLine ln :=
  linesP_good (okStr_gtltNorm X)

theorem linesOf_ws_front {w : List Char} (S : List Char) (hw : allWs w) :
    linesOf (w ++ S) = linesOf S := by
  unfold linesOf
  rw [gtltNorm_append_noGt S (fun hm => by
    have := hw '>' hm
    rw [isSpace_gt] at this
    exact Bool.false_ne_true this)]
  exact linesP_ws_front _ hw

theorem linesOf_ws_suffix {w : List Char} (S : List Char) (hw : allWs w) :
    linesOf (S ++ w) = linesOf S := by
  unfold linesOf
  rw [gtltNorm_append_ws hw S]
  exact linesP_ws_suffix hw _

theorem linesOf_trim (S : List Char) : linesOf (trimL S) = linesOf S := by
  have h1 : linesOf S = linesOf (S.dropWhile isSpace) := by
    conv_lhs => rw [← List.takeWhile_append_dropWhile (p := isSpace) (l := S)]
    exact linesOf_ws_front _ (allWs_takeWhile S)
  have h2 := rev_decomp isSpace (S.dropWhile isSpace)
  have hws :
      allWs (((S.dropWhile isSpace).reverse.takeWhile isSpace).reverse) := by
    intro x hx
    rw [List.mem_reverse] at hx
    exact List.mem_takeWhile_imp hx
  rw [h1]
  conv_rhs => rw [h2]
  rw [linesOf_ws_suffix _ hws]
  rfl


theorem coreN (lns : List (List Char)) :
    (∀ ln ∈ lns, GoodLine ln) →
    ∀ (t : List Char), lastNotWs t → noGtWsLt t = true → '\n' ∉ t →
    ∀ (ind : Nat),
    ∃ segs, splitNl (gtltNorm (t ++ nlJoin ind lns)) = t :: segs ∧
      ((segs.map trimL).filter (fun s => !s.isEmpty)) = lns := by
  induction lns with
  | nil =>
    intro _ t htl htg htn ind
    rw [nlJoin, List.append_nil]
    have hfix : gtltNorm t = t := by
      have h := @gtltNorm_line_nomatch t [] htl htg (by
        rintro ⟨h1, h2⟩
        simp at h2)
      rw [List.append_nil, gtltNorm_nil, List.append_nil] at h
      exact h
    rw [hfix, splitNl_of_noNl htn]
    exact ⟨[], rfl, rfl⟩
  | cons l1 rest ih =>
    intro hG t htl htg htn ind
    have hGl1 : GoodLine l1 := hG l1 (List.mem_cons_self _ _)
    have hGrest : ∀ ln ∈ rest, GoodLine ln :=
      fun ln h => hG ln (List.mem_cons_of_mem _ h)
    have hl1ne := hGl1.1
    have hl1tr := hGl1.2.1
    have hl1nl := hGl1.2.2.1
    have hl1gt := hGl1.2.2.2
    have hlast1 : lastNotWs l1 := good_lastNotWs hGl1
    rw [nlJoin]
    have hspws : allWs (indentSp (ind2Of ind l1)) := indentSp_allWs _
    cases hl1c : l1 with
    | nil => exact absurd hl1c hl1ne
    | cons c1 l1t =>
      subst hl1c
      have hhead1 : isSpace c1 = false := by
        apply trimL_head? (l := c1 :: l1t)
        rw [hl1tr]
        rfl
      have hdwR : List.dropWhile isSpace
          ('\n' :: (indentSp (ind2Of ind (c1 :: l1t)) ++ (c1 :: l1t) ++
            nlJoin (indNext ind (c1 :: l1t)) rest)) =
          (c1 :: l1t) ++ nlJoin (indNext ind (c1 :: l1t)) rest := by
        rw [List.dropWhile_cons, if_pos isSpace_nl, List.append_assoc,
          dropWhile_append_all (fun c hc => hspws c hc),
          List.cons_append, List.dropWhile_cons,
          if_neg (by rw [hhead1]; simp)]
      by_cases hmatch : t.getLast? = some '>' ∧ c1 = '<'
      · obtain ⟨hgt, hc1⟩ := hmatch
        subst hc1
        have hdw2 : List.dropWhile isSpace
            ('\n' :: (indentSp (ind2Of ind ('<' :: l1t)) ++ ('<' :: l1t) ++
              nlJoin (indNext ind ('<' :: l1t)) rest)) =
            '<' :: (l1t ++ nlJoin (indNext ind ('<' :: l1t)) rest) := hdwR
        have hnorm := gtltNorm_line_match htl htg hgt hdw2
        have hl1t_last : lastNotWs l1t := by
          cases l1t with
          | nil => intro c hc; simp at hc
          | cons d dd => exact lastNotWs_of_cons (by simp) hlast1
        have hl1t_gt : noGtWsLt l1t = true := noGtWsLt_tail hl1gt
        have hl1t_nl : '\n' ∉ l1t :=
          fun hm => hl1nl (List.mem_cons_of_mem _ hm)
        obtain ⟨segs2, hs1, hs2⟩ := ih hGrest l1t hl1t_last hl1t_gt
          hl1t_nl (indNext ind ('<' :: l1t))
        refine ⟨('<' :: l1t) :: segs2, ?_, ?_⟩
        · rw [hnorm, splitNl_append_nl _ htn,
            splitNl_cons_ne (by decide) _ hs1]
        · simp only [List.map_cons, List.filter_cons]
          rw [hl1tr]
          simp [hs2]
      · have hcond : ¬(t.getLast? = some '>' ∧
            (List.dropWhile isSpace
              ('\n' :: (indentSp (ind2Of ind (c1 :: l1t)) ++ (c1 :: l1t) ++
                nlJoin (indNext ind (c1 :: l1t)) rest))).head? =
              some '<') := by
          rintro ⟨h1, h2⟩
          rw [hdwR] at h2
          simp only [List.cons_append, List.head?_cons,
            Option.some.injEq] at h2
          exact hmatch ⟨h1, h2⟩
        have hnorm := gtltNorm_line_nomatch htl htg hcond
        have hnR : gtltNorm ('\n' :: (indentSp (ind2Of ind (c1 :: l1t)) ++
            (c1 :: l1t) ++ nlJoin (indNext ind (c1 :: l1t)) rest)) =
            '\n' :: (indentSp (ind2Of ind (c1 :: l1t)) ++
              gtltNorm ((c1 :: l1t) ++
                nlJoin (indNext ind (c1 :: l1t)) rest)) := by
          rw [gtltNorm_cons_ne _ (by decide), List.append_assoc,
            gtltNorm_append_noGt _ (indentSp_noGt _)]
        obtain ⟨segs2, hs1, hs2⟩ := ih hGrest (c1 :: l1t) hlast1 hl1gt
          hl1nl (indNext ind (c1 :: l1t))
        refine ⟨(indentSp (ind2Of ind (c1 :: l1t)) ++ (c1 :: l1t)) ::
          segs2, ?_, ?_⟩
        · rw [hnorm, hnR, splitNl_append_nl _ htn,
            splitNl_prefix_noNl (indentSp_noNl _) hs1]
        · simp only [List.map_cons, List.filter_cons]
          rw [trimL_ws_front _ hspws, hl1tr]
          simp [hs2]

/-- Formatting already-good lines and re-splitting recovers exactly those
lines: the indent prefixes and trailing newline are whitespace the line
extraction discards, and the normalizer does not fire inside the output. -/
theorem fmtLines_linesOf (lns : List (List Char)) :
    (∀ ln ∈ lns, GoodLine ln) → ∀ (ind : Nat),
    linesOf (fmtLines ind lns) = lns := by
  intro hG ind
  cases lns with
  | nil =>
    show linesOf [] = []
    unfold linesOf
    rw [gtltNorm_nil]
    rfl
  | cons l1 rest =>
    have hGl1 : GoodLine l1 := hG l1 (List.mem_cons_self _ _)
    have hGrest : ∀ ln ∈ rest, GoodLine ln :=
      fun ln h => hG ln (List.mem_cons_of_mem _ h)
    rw [fmtLines_shape, List.append_assoc,
      linesOf_ws_front _ (indentSp_allWs _), ← List.append_assoc,
      linesOf_ws_suffix _ (by
        intro c hc
        rw [List.mem_singleton] at hc
        subst hc
        rfl)]
    obtain ⟨segs, hs1, hs2⟩ := coreN rest hGrest l1 (good_lastNotWs hGl1)
      hGl1.2.2.2 hGl1.2.2.1 (indNext ind l1)
    unfold linesOf linesP
    rw [hs1]
    simp only [List.map_cons, List.filter_cons]
    rw [hGl1.2.1]
    have hne : (!l1.isEmpty) = true := by
      cases hc : l1 with
      | nil => exact absurd hc hGl1.1
      | cons a b => rfl
    rw [if_pos hne, hs2]

/-- The full formatter equals: extract the good lines, format them, trim. -/
theorem formatXML_eq (l : List Char) :
    formatXML l = trimL (fmtLines 0 (linesOf l)) := by
  unfold formatXML
  rw [fmtLoop_eq]
  rfl

/-- C9: `formatXML` is idempotent - formatting an already formatted
document returns it unchanged, for every input string. -/
theorem c9_formatXML_idempotent (s : String) :
    formatXMLS (formatXMLS s) = formatXMLS s := by
  unfold formatXMLS
  have h : formatXML (formatXML s.data) = formatXML s.data := by
    conv_lhs => rw [formatXML_eq]
    have hl : linesOf (formatXML s.data) = linesOf s.data := by
      unfold formatXML
      rw [linesOf_trim, fmtLoop_eq]
      exact fmtLines_linesOf _ linesOf_good 0
    rw [hl, ← formatXML_eq]
  rw [show (⟨formatXML s.data⟩ : String).data = formatXML s.data from rfl, h]

end XMLViewer
